import Mathlib

/-!
Verification of the audit-automate capture-and-reconcile pipeline.

This file gives a shallow embedding of the core data handling of the
repository (the CSV record reconciler, the Gemini response formatter and
fallback generator, the screenshot fallback chain, the retailer auditor
cleanup discipline, and the batch orchestrator loop) and proves or refutes
the specification claims about them.

Modelling conventions:
* Python dicts are insertion-ordered association lists `List (String × V)`;
  `dictSet` replaces a present key in place and appends a new key at the end,
  and `dictFind?` returns the value at the first (hence, for dicts built by
  `dictSet`, the unique) occurrence of a key.
* Python `str.strip()` is `pyStrip`, `str.lower()` is `pyLower`,
  `' '.join(s.split())` is `pySplitJoin`, `re.sub(r'\s+', ' ', s)` is
  `pyCollapseWS`, and `str.capitalize()` is `pyCapitalize` (all implemented
  structurally on the character list, so that concrete witnesses evaluate).
* `len(s.split('\n'))` is `pyLineCount` (in Python this always equals
  `s.count('\n') + 1`, including for the empty string).
* Exceptions are modelled with `Except String`; operations that the source
  wraps in `try/except` blocks that swallow every exception are modelled as
  non-raising.
-/

set_option maxRecDepth 8192

namespace AuditAutomate

/-- First-occurrence association-list lookup (Python dict lookup for lists
built with `dictSet`, which keeps keys unique). -/
def dictFind? {V : Type} (m : List (String × V)) (k : String) : Option V :=
  match m with
  | [] => none
  | (k₂, v) :: t => if k₂ = k then some v else dictFind? t k

/-- Python `m.get(k, d)`. -/
def dictGet {V : Type} (m : List (String × V)) (k : String) (d : V) : V :=
  (dictFind? m k).getD d

/-- Python `k in m`. -/
def dictHas {V : Type} (m : List (String × V)) (k : String) : Bool :=
  (dictFind? m k).isSome

/-- Python `m[k] = v`: replace the value of a present key in place, append a
new key at the end (insertion order preserved). -/
def dictSet {V : Type} (m : List (String × V)) (k : String) (v : V) :
    List (String × V) :=
  match m with
  | [] => [(k, v)]
  | (k₂, w) :: t => if k₂ = k then (k, v) :: t else (k₂, w) :: dictSet t k v

/-! ### Python string helpers -/

/-- Python `str.strip()`: drop leading and trailing whitespace. -/
def pyStrip (s : String) : String :=
  String.mk
    (((s.data.dropWhile Char.isWhitespace).reverse.dropWhile
      Char.isWhitespace).reverse)

/-- Python `str.lower()`. -/
def pyLower (s : String) : String := String.mk (s.data.map Char.toLower)

/-- Concatenate with a separator (Python `sep.join(parts)`). -/
def joinSep (sep : String) : List String → String
  | [] => ""
  | [x] => x
  | x :: t => x ++ sep ++ joinSep sep t

/-- One step of `re.sub(r'\s+', ' ', s)`: collapse every maximal whitespace
run to a single space character.  The flag records whether the previous
character was whitespace (so the run's later characters are dropped). -/
def collapseAux : Bool → List Char → List Char
  | _, [] => []
  | prevWS, c :: t =>
    if c.isWhitespace then
      if prevWS then collapseAux true t else ' ' :: collapseAux true t
    else c :: collapseAux false t

/-- `re.sub(r'\s+', ' ', s)`. -/
def pyCollapseWS (s : String) : String := String.mk (collapseAux false s.data)

/-- Python `s.split()`: the whitespace-separated words; `cur` accumulates the
current word in reverse. -/
def pyWordsAux : List Char → List Char → List String
  | cur, [] => if cur = [] then [] else [String.mk cur.reverse]
  | cur, c :: t =>
    if c.isWhitespace then
      if cur = [] then pyWordsAux [] t
      else String.mk cur.reverse :: pyWordsAux [] t
    else pyWordsAux (c :: cur) t

/-- `' '.join(s.split())`: split on whitespace runs, drop empties, re-join
with single spaces. -/
def pySplitJoin (s : String) : String := joinSep " " (pyWordsAux [] s.data)

/-- The field-name normalisation used when comparing a parsed field name with
a schema field name: `re.sub(r'\s+', ' ', x).lower()`. -/
def normKey (s : String) : String := pyLower (pyCollapseWS s)

/-- `str.capitalize()`: first character upper-cased, the rest lower-cased. -/
def pyCapitalize (s : String) : String :=
  match s.data with
  | [] => ""
  | c :: t => String.mk (c.toUpper :: t.map Char.toLower)

/-- `len(s.split('\n'))`, which in Python equals `s.count('\n') + 1`. -/
def pyLineCount (s : String) : Nat := s.data.count '\n' + 1

/-- A string containing no newline character. -/
def nlFree (s : String) : Bool := s.data.count '\n' == 0

/-! ### The fixed analysis schema (expected_fields in both processors) -/

/-- The 32 schema field names, in order, as built by
`CsvProcessor.__init__` and `GeminiProcessor.__init__`. -/
def expectedFields : List String :=
  ["Link", "Category", "SKU", "Retailer",
   "Images Count", "Images Visible Issues?",
   "Video Count", "Video Visible Issues?",
   "A+ Content Type", "A+ Content Accuracy?",
   "Title Actual", "Title Accuracy?"] ++
  (List.range 9).flatMap (fun i =>
    ["Bullet Point " ++ toString (i + 1) ++ " Actual",
     "Bullet Point " ++ toString (i + 1) ++ " Accuracy?"]) ++
  ["Description Actual", "Description Accuracy?"]

/-! ### Product-id and analysis-file-name parsing -/

/-- Python `\w` on the identifiers used here (ASCII word characters). -/
def isWordChar (c : Char) : Bool := c.isAlphanum || c = '_'

/-- `re.match(r'(link\d+)_(\w+)', s)`: the base product id (`linkN`, with a
maximal digit run) and the retailer name (a maximal nonempty word-character
run); trailing characters are ignored, as `re.match` only anchors the start. -/
def parseProductId (s : String) : Option (String × String) :=
  if s.data.take 4 = ['l', 'i', 'n', 'k'] then
    if (s.data.drop 4).takeWhile Char.isDigit = [] then none
    else
      match (s.data.drop 4).dropWhile Char.isDigit with
      | [] => none
      | c :: rest₂ =>
        if c = '_' then
          if rest₂.takeWhile isWordChar = [] then none
          else
            some (String.mk (['l', 'i', 'n', 'k'] ++
                (s.data.drop 4).takeWhile Char.isDigit),
              String.mk (rest₂.takeWhile isWordChar))
        else none
  else none

/-- `re.match(r'(link\d+)_(\w+)_analysis\.txt$', s)`: anchored at both ends,
so the whole name must be `linkN_retailer_analysis.txt` with `retailer` a
nonempty word-character run. -/
def parseAnalysisFileName (s : String) : Option (String × String) :=
  let cs := s.data
  let n := cs.length
  if 13 ≤ n ∧ cs.drop (n - 13)
      = ['_', 'a', 'n', 'a', 'l', 'y', 's', 'i', 's', '.', 't', 'x', 't'] then
    let core := String.mk (cs.take (n - 13))
    match parseProductId core with
    | some (b, w) =>
      if b.length + 1 + w.length = core.length then some (b, w) else none
    | none => none
  else none

/-- The retailer display name: `"Home Depot" if retailer.lower() ==
"homedepot" else retailer.capitalize()`. -/
def retailerDisplayName (retailer : String) : String :=
  if pyLower retailer = "homedepot" then "Home Depot" else pyCapitalize retailer

/-! ### Free-text field extraction (shared by both processors)

The regex scan `pattern.findall(content)` over the collaborator reply is the
abstract input here: a list of raw `(field name, value)` capture pairs.  What
both processors do with those pairs is modelled exactly. -/

/-- The `found_values` dict: for each capture pair, strip both components,
whitespace-normalise the name, and insert (later duplicates overwrite). -/
def foundValues (captures : List (String × String)) : List (String × String) :=
  captures.foldl (fun d m => dictSet d (pySplitJoin (pyStrip m.1)) (pyStrip m.2)) []

/-- The per-schema-field scan over `found_values`: first entry whose
collapse-and-lowercase normalised name equals the schema field's, else
the empty string. -/
def fieldLookup (fv : List (String × String)) (field : String) : String :=
  match fv.find? (fun p => normKey p.1 == normKey field) with
  | some p => p.2
  | none => ""

/-! ### GeminiProcessor._format_direct_response -/

/-- `GeminiProcessor._format_direct_response`, as the ordered field/value
pairs it renders (one output line per schema field).  The `Link` value is
always replaced by the url_map entry for the base product id (or `""` when
the id does not parse), and `Retailer` by the display name. -/
def formatDirectPairs (urlMap : List (String × String))
    (captures : List (String × String)) (productId : String) :
    List (String × String) :=
  let m := parseProductId productId
  let base : Option String := m.map Prod.fst
  let retailer : String := match m with
    | some (_, r) => r
    | none => "Unknown"
  let display := retailerDisplayName retailer
  let fv := foundValues captures
  expectedFields.map fun field =>
    let v := fieldLookup fv field
    let v :=
      if field = "Link" then
        match base with
        | some b => dictGet urlMap b ""
        | none => ""
      else if field = "Retailer" then display
      else v
    (field, v)

/-- Rendering of one output line: `"**{field}:** {value}"`. -/
def renderLine (field value : String) : String := "**" ++ field ++ ":** " ++ value

/-- Python `'\n'.join(lines)`. -/
def joinNL : List String → String
  | [] => ""
  | [s] => s
  | s :: t => s ++ "\n" ++ joinNL t

/-- The string `_format_direct_response` returns. -/
def formatDirectResponse (urlMap captures : List (String × String))
    (productId : String) : String :=
  joinNL ((formatDirectPairs urlMap captures productId).map fun p =>
    renderLine p.1 p.2)

/-! ### GeminiProcessor._create_fallback_response -/

/-- `GeminiProcessor._create_fallback_response`, as ordered field/value
pairs: all fields empty except `Link` (from the url_map, when the product id
parses), `Retailer` (display name), and `Description Actual` (the error
marker). -/
def createFallbackPairs (urlMap : List (String × String)) (productId : String)
    (errMsg : String) : List (String × String) :=
  let m := parseProductId productId
  let base : Option String := m.map Prod.fst
  let retailer : String := match m with
    | some (_, r) => r
    | none => "Unknown"
  let display := retailerDisplayName retailer
  expectedFields.map fun field =>
    let v :=
      if field = "Link" ∧ base.isSome then dictGet urlMap (base.getD "") ""
      else if field = "Retailer" then display
      else if field = "Description Actual" then "ERROR PROCESSING: " ++ errMsg
      else ""
    (field, v)

/-- The string `_create_fallback_response` returns. -/
def createFallbackResponse (urlMap : List (String × String))
    (productId errMsg : String) : String :=
  joinNL ((createFallbackPairs urlMap productId errMsg).map fun p =>
    renderLine p.1 p.2)

/-! ### CsvProcessor._parse_analysis_file -/

/-- `CsvProcessor._parse_analysis_file`, from the regex capture pairs of the
analysis file's content and the file name.  Every schema field is populated
(missing ones as `""`); then, only when the base product id parsed from the
file name is present in the url_map, the `Link` field is overwritten with the
authoritative URL.  (When the id is absent from the map, the `Link` value
parsed from the analysis text is retained.) -/
def parseAnalysisFilePairs (urlMap : List (String × String))
    (captures : List (String × String)) (fileName : String) :
    List (String × String) :=
  let base : Option String := (parseAnalysisFileName fileName).map Prod.fst
  let fv := foundValues captures
  let parsed := expectedFields.map fun field => (field, fieldLookup fv field)
  match base with
  | some b =>
    if dictHas urlMap b then dictSet parsed "Link" (dictGet urlMap b "")
    else parsed
  | none => parsed

/-! ### The per-product Gemini step of process_all_products

`process_product` either returns the formatted response or, when the API
call (or reading an input artifact) raises, the fallback response; the
caller writes that string to the analysis file and then marks the product
`Passed` exactly when its line count equals the schema size, `Failed`
otherwise. -/

/-- One row of the run report (reporting_utils.AuditReport):
status, optional qualifier details, optional error message. -/
structure ReportEntry where
  status : String
  details : Option String
  error : Option String
deriving DecidableEq, Repr

/-- The string `process_product` returns for a product: the formatted
response on API success, the fallback response when the call (or reading an
input artifact) raised. -/
def geminiResultText (urlMap : List (String × String)) (productId : String)
    (api : Except String (List (String × String))) : String :=
  match api with
  | .ok ms => formatDirectResponse urlMap ms productId
  | .error e =>
    createFallbackResponse urlMap productId
      ("Error processing " ++ productId ++ " with Gemini API: " ++ e)

/-- The per-product body of `process_all_products`: the analysis file's
content (the written string) and the report entry recorded for the product.
`api` is the outcome of the Gemini call: `.ok` carries the regex capture
pairs of the reply text, `.error` the exception message.  The caller marks
the product `Failed` exactly when the written file's line count differs
from the schema size, else `Passed`. -/
def processOneProduct (urlMap : List (String × String)) (productId : String)
    (api : Except String (List (String × String))) : String × ReportEntry :=
  if pyLineCount (geminiResultText urlMap productId api) ≠ expectedFields.length then
    (geminiResultText urlMap productId api, ⟨"Failed", none,
      some ("Output line count mismatch: "
        ++ toString (pyLineCount (geminiResultText urlMap productId api)))⟩)
  else
    (geminiResultText urlMap productId api, ⟨"Passed", none, none⟩)

/-! ### CsvProcessor.process_all_analyses: the record reconciler

A table row, like an analysis record, is a Python dict (association list)
from field names to string values.  `_load_existing_csv` normalises every
loaded row to exactly the expected fields (`complete_row`) and builds the
`url_to_row_index` dict from each row's stripped `Link` value (later rows
overwrite earlier ones); the processing loop then upserts each parsed record
by its stripped `Link` value. -/

/-- A table row / analysis record: an insertion-ordered dict. -/
abbrev Row := List (String × String)

/-- The reconciliation key of a record: `row.get("Link", "").strip()`. -/
def rowLink (r : Row) : String := pyStrip (dictGet r "Link" "")

/-- `complete_row` in `_load_existing_csv`: restrict a loaded row to exactly
the expected fields, missing ones as `""`. -/
def loadRow (raw : Row) : Row :=
  expectedFields.map fun f => (f, dictGet raw f "")

/-- `url_to_row_index` as built by `_load_existing_csv`: enumerate the rows
and map each nonempty stripped `Link` to its row index (later rows win). -/
def buildIndex (rows : List Row) : List (String × Nat) :=
  rows.enum.foldl
    (fun m p => if rowLink p.2 = "" then m else dictSet m (rowLink p.2) p.1) []

/-- The two update loops of `process_all_analyses` (lines 235–243): for every
expected field, overwrite the row's value with the parsed record's
(defaulting to the row's current value, resp. `""`, when the parsed record
lacks the field); then add any still-missing expected field. -/
def updateRow (old rec : Row) : Row :=
  let r₁ := expectedFields.foldl
    (fun r f =>
      if dictHas r f then dictSet r f (dictGet rec f (dictGet r f ""))
      else dictSet r f (dictGet rec f "")) old
  expectedFields.foldl
    (fun r f => if dictHas r f then r else dictSet r f (dictGet rec f "")) r₁

/-- `new_row_data` (line 247): a fresh row with exactly the expected fields,
taken from the parsed record. -/
def newRowData (rec : Row) : Row :=
  expectedFields.map fun f => (f, dictGet rec f "")

/-- In-memory reconciler state: the row list and the Link → row-index dict. -/
structure TableState where
  rows : List Row
  idx : List (String × Nat)

/-- One iteration of the `for file in files_to_process` loop, after parsing:
empty link ⇒ unconditional append (no index entry); known link ⇒ in-place
update of the indexed row; new link ⇒ append `new_row_data` and extend the
index. -/
def csvStep (st : TableState) (rec : Row) : TableState :=
  if rowLink rec = "" then ⟨st.rows ++ [rec], st.idx⟩
  else
    match dictFind? st.idx (rowLink rec) with
    | some i => ⟨st.rows.set i (updateRow (st.rows[i]?.getD []) rec), st.idx⟩
    | none =>
      ⟨st.rows ++ [newRowData rec], dictSet st.idx (rowLink rec) st.rows.length⟩

/-- `process_all_analyses` on its in-memory table: load the existing rows
(normalised), build the index, and fold the records through the upsert loop.
Persistence (CSV write/read) round-trips rows of exactly the expected fields,
so a re-run's `_load_existing_csv` is `loadRow` on the previous result. -/
def processAllAnalyses (existing : List Row) (recs : List Row) : List Row :=
  let rows₀ := existing.map loadRow
  (recs.foldl csvStep ⟨rows₀, buildIndex rows₀⟩).rows

/-! #### A positional specification of the upsert loop

`lastIdxOf`, `stepP` and `foldP` re-express the loop purely on the row list:
the incrementally maintained index dict always agrees with "last row whose
stripped `Link` equals the key" (proved below), and on records with every
expected field the in-place update rewrites the whole row. -/

/-- Index of the last occurrence of `k` in `ks`. -/
def lastIdxOf (ks : List String) (k : String) : Option Nat :=
  match ks with
  | [] => none
  | a :: t =>
    match lastIdxOf t k with
    | some j => some (j + 1)
    | none => if a = k then some 0 else none

/-- The reconciliation keys of a table. -/
def rowKeys (rows : List Row) : List String := rows.map rowLink

/-- Index of the last row keyed `k`. -/
def lastOcc (rows : List Row) (k : String) : Option Nat :=
  lastIdxOf (rowKeys rows) k

/-- The positional form of one upsert. -/
def stepP (rows : List Row) (rec : Row) : List Row :=
  if rowLink rec = "" then rows ++ [rec]
  else
    match lastOcc rows (rowLink rec) with
    | some i => rows.set i rec
    | none => rows ++ [rec]

/-- The positional form of the whole run. -/
def foldP (rows : List Row) (recs : List Row) : List Row :=
  recs.foldl stepP rows

/-- A row with exactly the schema's keys, in schema order — the shape of
every row `_load_existing_csv` loads and every record
`_parse_analysis_file` produces. -/
def Canonical (r : Row) : Prop := r.map Prod.fst = expectedFields

instance (r : Row) : Decidable (Canonical r) :=
  inferInstanceAs (Decidable (r.map Prod.fst = expectedFields))

/-- The reconciler-state invariant: the index dict answers exactly
"index of the last row with this nonempty stripped Link". -/
def IdxOk (st : TableState) : Prop :=
  ∀ k, k ≠ "" → dictFind? st.idx k = lastOcc st.rows k

/-! ### take_full_page_screenshot: the tiered fallback chain (C5, C9)

`takeFullPageScreenshotFlow` is the exception-flow skeleton of
`screenshot_manager.take_full_page_screenshot`: each tier's body is
abstracted to its outcome.  Tiers 1–3 are each wrapped in a `try/except`
that falls through; the tier-4 bare `driver.save_screenshot` inside the
innermost `except` block is NOT wrapped, so its exception propagates, and
every non-raising path returns `True` — the trailing `return False` is
unreachable. -/

def takeFullPageScreenshotFlow (t1 t2 t3 t4 : Except String Unit) :
    Except String Bool :=
  match t1 with
  | .ok _ => .ok true
  | .error _ =>
    match t2 with
    | .ok _ => .ok true
    | .error _ =>
      match t3 with
      | .ok _ => .ok true
      | .error _ =>
        match t4 with
        | .ok _ => .ok true
        | .error e => .error e

/-! ### The tier-3 tiled-stitch capture in detail (C9) -/

/-- A PIL image: dimensions plus abstract pixel contents. -/
structure PILImage where
  width : Nat
  height : Nat
  pix : Nat → Nat → Nat

/-- `Image.new('RGB', (w, h))`. -/
def pilNew (w h : Nat) : PILImage := ⟨w, h, fun _ _ => 0⟩

/-- `img.crop((0, 0, w, h))`. -/
def pilCrop (img : PILImage) (w h : Nat) : PILImage :=
  ⟨w, h, fun x y => img.pix x y⟩

/-- `base.paste(tile, (0, top))`: in-place paste, dimensions unchanged. -/
def pilPaste (base tile : PILImage) (top : Nat) : PILImage :=
  ⟨base.width, base.height, fun x y =>
    if x < tile.width ∧ top ≤ y ∧ y < top + tile.height then
      tile.pix x (y - top)
    else base.pix x y⟩

/-- The tier-3 scroll-capture-paste loop (screenshot_manager lines 99–124):
capture at the current offset, crop the final tile to the remaining height,
paste at the offset, and advance by `viewport_height - 100`.  The returned
log records each pasted tile as `(offset, tile height)`.  The hypothesis
`100 < vh` is the loop's termination condition: with `vh ≤ 100` the Python
loop would not advance. -/
def stitchLoop (vh vw th : Nat) (shot : Nat → PILImage) (hvh : 100 < vh)
    (offset : Nat) (acc : PILImage) (log : List (Nat × Nat)) :
    PILImage × List (Nat × Nat) :=
  if h : offset < th then
    if offset + vh > th then
      stitchLoop vh vw th shot hvh (offset + (vh - 100))
        (pilPaste acc (pilCrop (shot offset) vw (th - offset)) offset)
        (log ++ [(offset, th - offset)])
    else
      stitchLoop vh vw th shot hvh (offset + (vh - 100))
        (pilPaste acc (shot offset) offset)
        (log ++ [(offset, (shot offset).height)])
  else (acc, log)
termination_by th - offset
decreasing_by
  · omega
  · omega

/-- The whole tier-3 body: a blank image of the full scroll height and the
viewport width, filled by the stitch loop from offset 0. -/
def stitchCapture (vh vw th : Nat) (shot : Nat → PILImage) (hvh : 100 < vh) :
    PILImage × List (Nat × Nat) :=
  stitchLoop vh vw th shot hvh 0 (pilNew vw th) []

/-- `take_full_page_screenshot` refined at tier 3: tiers 1 and 2 abstracted
to their outcomes (an image on success), tier 3 the stitch loop. -/
def takeFullPageScreenshotStitched (t1 t2 : Except String PILImage)
    (vh vw th : Nat) (shot : Nat → PILImage) (hvh : 100 < vh) :
    Except String (PILImage × List (Nat × Nat)) :=
  match t1 with
  | .ok img => .ok (img, [])
  | .error _ =>
    match t2 with
    | .ok img => .ok (img, [])
    | .error _ => .ok (stitchCapture vh vw th shot hvh)

/-! ### Retailer auditor capture_product_data (C10) and the batch loop (C6)

`captureProductData` is the shared control-flow skeleton of
`HomeDepotAuditor.capture_product_data` and
`LowesAuditor.capture_product_data`: acquire a session, navigate, dismiss
popups (internally swallowed), attempt the details interaction (which in the
Home Depot variant can raise; Lowes' view-all-images helper swallows
everything, modelled as `.ok b`), take the screenshot (which can raise via
tier 4), extract text (internally swallowed, may leave a partial file),
optionally crop, and quit.  The `except` handler closes the session when one
was acquired and removes the png/txt files when present; its own cleanup
calls are modelled as succeeding. -/

structure CaptureBehavior where
  setup : Except String Unit
  nav : Except String Unit
  details : Except String Bool
  screenshot : Except String Unit
  pngOnFail : Bool
  textOk : Bool
  txtOnFail : Bool
  cropOk : Bool
  quitStep : Except String Unit

/-- On-disk and session state around one capture. -/
structure CaptureState where
  sessionOpen : Bool
  hasPng : Bool
  hasTxt : Bool
deriving DecidableEq, Repr

/-- The `except Exception` handler: `if driver: driver.quit()`, then remove
the png and txt files if they exist, then `return False, error_msg`. -/
def captureCleanup (e : String) : (Bool × String) × CaptureState :=
  ((false, e), ⟨false, false, false⟩)

def captureProductData (b : CaptureBehavior) (applyCrop : Bool)
    (st₀ : CaptureState) : (Bool × String) × CaptureState :=
  match b.setup with
  | .error e => captureCleanup e
  | .ok _ =>
    match b.nav with
    | .error e => captureCleanup e
    | .ok _ =>
      match b.details with
      | .error e => captureCleanup e
      | .ok _detailsOpened =>
        match b.screenshot with
        | .error e => captureCleanup e
        | .ok _ =>
          match b.quitStep with
          | .error e => captureCleanup e
          | .ok _ =>
            ((true, ""),
              ⟨false, true, b.textOk || b.txtOnFail || st₀.hasTxt⟩)

/-- An exception raised mid-flow, after the browser session was acquired. -/
def midFlowRaise (b : CaptureBehavior) : Bool :=
  b.setup.isOk &&
    (!b.nav.isOk || !b.details.isOk || !b.screenshot.isOk || !b.quitStep.isOk)

/-! ### The orchestrator's per-target retry loop (main.py lines 117–144) -/

/-- The retry loop: on the first successful attempt, record an unqualified
pass (`report.pass_product(product_id)` with no details argument); on a
failed attempt or a raised attempt, remember the error and retry; after the
last attempt, record a failure with the last error. -/
def captureRetryLoop (attempts : Nat → Except String (Bool × String)) :
    Nat → Nat → String → ReportEntry
  | 0, _, last =>
    ⟨"Failed", none, some ("Capture failed. Last error: " ++ last)⟩
  | n + 1, k, _ =>
    match attempts k with
    | .ok (true, _) => ⟨"Passed", none, none⟩
    | .ok (false, e) => captureRetryLoop attempts n (k + 1) e
    | .error e =>
      captureRetryLoop attempts n (k + 1)
        ("Critical error during capture attempt " ++ toString (k + 1) ++ ": " ++ e)

/-- One target's processing in `main`: run the retry loop from attempt 0. -/
def processTarget (retries : Nat)
    (attempts : Nat → Except String (Bool × String)) : ReportEntry :=
  captureRetryLoop attempts retries 0 "Capture not attempted."

/-! ### C7: backup-before-write and restore-on-failure
(csv_processor lines 258–290)

The file system is a path → contents dict.  The write phase: if the
canonical file exists, copy it to the `.bak` sibling; write the new table to
the canonical path (on injected failure, `open(..., 'w')` has truncated and
partially written, leaving arbitrary `partialContent`); on write failure,
if the backup exists, `shutil.move` it back over the canonical file and
return `False`; on success, also copy the canonical file to the timestamped
snapshot path and return `True`. -/

/-- Remove a path from the file system. -/
def fsDel (fs : List (String × String)) (p : String) : List (String × String) :=
  fs.filter (fun q => q.1 ≠ p)

/-- The pre-write backup: copy the canonical file to its `.bak` sibling when
it exists. -/
def csvBackupStep (fs : List (String × String)) (canonical : String) :
    List (String × String) :=
  if dictHas fs canonical then
    dictSet fs (canonical ++ ".bak") (dictGet fs canonical "")
  else fs

def csvWritePhase (fs : List (String × String))
    (canonical snapName newContent partialContent : String)
    (writeFails : Bool) : Bool × List (String × String) :=
  if writeFails then
    if dictHas (dictSet (csvBackupStep fs canonical) canonical partialContent)
        (canonical ++ ".bak") then
      (false,
        fsDel
          (dictSet (dictSet (csvBackupStep fs canonical) canonical partialContent)
            canonical
            (dictGet (dictSet (csvBackupStep fs canonical) canonical partialContent)
              (canonical ++ ".bak") ""))
          (canonical ++ ".bak"))
    else (false, dictSet (csvBackupStep fs canonical) canonical partialContent)
  else
    (true,
      dictSet (dictSet (csvBackupStep fs canonical) canonical newContent)
        snapName newContent)

/-! ### C8: sequence-index assignment across the three loaders

`main` builds `links = [line.strip() for line in f if line.strip()]` and
enumerates the FILTERED list from 1 — a blank line does not consume an
index.  Both `GeminiProcessor._load_urls` and
`CsvProcessor._load_urls_from_file` enumerate the RAW lines from 1 and skip
blanks — a blank line does consume an index.  So the three components do
not compute the same URL-to-index mapping on files with blank lines. -/

/-- The Batch Orchestrator's index assignment (main.py lines 84–89):
1-based position among the non-blank stripped lines. -/
def mainLinkAssignment (lines : List String) : List (Nat × String) :=
  List.enumFrom 1 ((lines.filter (fun l => pyStrip l ≠ "")).map pyStrip)

/-- `GeminiProcessor._load_urls` (gemini_processor.py lines 39–54):
`linkN` keyed by the RAW 1-based line number, blanks skipped. -/
def geminiLoadUrls (lines : List String) : List (String × String) :=
  (List.enumFrom 1 lines).foldl
    (fun m p =>
      if pyStrip p.2 = "" then m
      else dictSet m ("link" ++ toString p.1) (pyStrip p.2)) []

/-- `CsvProcessor._load_urls_from_file` (csv_processor.py lines 41–56):
textually the same loop as `GeminiProcessor._load_urls`. -/
def csvLoadUrlsFromFile (lines : List String) : List (String × String) :=
  (List.enumFrom 1 lines).foldl
    (fun m p =>
      if pyStrip p.2 = "" then m
      else dictSet m ("link" ++ toString p.1) (pyStrip p.2)) []

/-! ## Theorems -/

theorem dictFind?_dictSet {V : Type} (m : List (String × V)) (k k₂ : String)
    (v : V) :
    dictFind? (dictSet m k v) k₂ = if k = k₂ then some v else dictFind? m k₂ := by
  induction m with
  | nil => simp [dictSet, dictFind?]
  | cons h t ih =>
    obtain ⟨hk, hv⟩ := h
    by_cases h1 : hk = k
    · subst h1
      simp only [dictSet, if_pos rfl, dictFind?]
      by_cases h2 : hk = k₂ <;> simp [h2]
    · simp only [dictSet, if_neg h1, dictFind?]
      by_cases h2 : hk = k₂
      · subst h2
        have : ¬ k = hk := fun h => h1 h.symm
        simp [this]
      · simp [h2, ih]

theorem keys_dictSet_of_has {V : Type} (m : List (String × V)) (k : String)
    (v : V) (h : dictHas m k = true) :
    (dictSet m k v).map Prod.fst = m.map Prod.fst := by
  induction m with
  | nil => simp [dictHas, dictFind?] at h
  | cons p t ih =>
    obtain ⟨hk, hv⟩ := p
    by_cases h1 : hk = k
    · subst h1; simp [dictSet]
    · simp only [dictSet, if_neg h1, List.map_cons, List.cons.injEq, true_and]
      apply ih
      simpa [dictHas, dictFind?, h1] using h

theorem dictGet_of_keys_eq_map {ks : List String} {g : String → String}
    (hnd : ks.Nodup) (f : String) (hf : f ∈ ks) :
    dictGet (ks.map fun x => (x, g x)) f "" = g f := by
  induction ks with
  | nil => cases hf
  | cons a t ih =>
    rcases List.mem_cons.mp hf with h | h
    · subst h; simp [dictGet, dictFind?]
    · have ha : a ≠ f := by
        rintro rfl; exact (List.nodup_cons.mp hnd).1 h
      simp only [List.map_cons, dictGet, dictFind?, if_neg ha]
      exact ih (List.nodup_cons.mp hnd).2 h

theorem expectedFields_length : expectedFields.length = 32 := by decide

theorem expectedFields_nodup : expectedFields.Nodup := by decide

theorem link_mem_expectedFields : "Link" ∈ expectedFields := by decide

/-! #### Dict lemmas for canonical rows -/

theorem dictFind?_isSome_of_mem_keys {V : Type} {m : List (String × V)}
    {f : String} (h : f ∈ m.map Prod.fst) : (dictFind? m f).isSome := by
  induction m with
  | nil => simp at h
  | cons p t ih =>
    by_cases hp : p.1 = f
    · simp [dictFind?, hp]
    · simp only [List.map_cons, List.mem_cons] at h
      rcases h with h | h
      · exact absurd h.symm hp
      · simpa [dictFind?, hp] using ih h

theorem dictHas_of_mem_keys {V : Type} {m : List (String × V)} {f : String}
    (h : f ∈ m.map Prod.fst) : dictHas m f = true :=
  dictFind?_isSome_of_mem_keys h

theorem dictGet_default_irrel {V : Type} {m : List (String × V)} {f : String}
    (h : f ∈ m.map Prod.fst) (d₁ d₂ : V) : dictGet m f d₁ = dictGet m f d₂ := by
  have := dictFind?_isSome_of_mem_keys (m := m) h
  rcases ho : dictFind? m f with _ | v
  · rw [ho] at this; simp at this
  · simp [dictGet, ho]

/-- Reconstructing a nodup-keyed dict from its own keys and lookups. -/
theorem dict_reconstruct {m : Row} (hnd : (m.map Prod.fst).Nodup) :
    (m.map Prod.fst).map (fun f => (f, dictGet m f "")) = m := by
  induction m with
  | nil => simp
  | cons p t ih =>
    obtain ⟨k, v⟩ := p
    simp only [List.map_cons, List.nodup_cons] at hnd ⊢
    have hhead : dictGet ((k, v) :: t) k "" = v := by simp [dictGet, dictFind?]
    have htail : ∀ f ∈ t.map Prod.fst,
        (f, dictGet ((k, v) :: t) f "") = (f, dictGet t f "") := by
      intro f hf
      have hk : k ≠ f := by rintro rfl; exact hnd.1 hf
      simp [dictGet, dictFind?, hk]
    rw [hhead, List.map_congr_left htail, ih hnd.2]

/-- With nodup keys and a present key, `dictSet` is a pointwise value
replacement. -/
theorem dictSet_eq_map {V : Type} {m : List (String × V)} {f : String} {v : V}
    (hnd : (m.map Prod.fst).Nodup) (hf : f ∈ m.map Prod.fst) :
    dictSet m f v = m.map fun p => if p.1 = f then (f, v) else p := by
  induction m with
  | nil => simp at hf
  | cons p t ih =>
    obtain ⟨k, w⟩ := p
    simp only [List.map_cons, List.nodup_cons] at hnd
    by_cases hk : k = f
    · subst hk
      have : ∀ p ∈ t, (if p.1 = k then (k, v) else p) = p := by
        intro p hp
        have : p.1 ≠ k := by
          intro he; exact hnd.1 (he ▸ List.mem_map_of_mem Prod.fst hp)
        simp [this]
      simp [dictSet, List.map_congr_left this]
    · have hft : f ∈ t.map Prod.fst := by
        simp only [List.map_cons, List.mem_cons] at hf
        rcases hf with h | h
        · exact absurd h.symm hk
        · exact h
      simp [dictSet, hk, ih hnd.2 hft]

/-- Folding `dictSet` with key-determined values over a key list rewrites
exactly the listed (present) keys. -/
theorem foldl_dictSet_eq_map {V : Type} (g : String → V) :
    ∀ (ks : List String) (m : List (String × V)),
      (m.map Prod.fst).Nodup → (∀ f ∈ ks, f ∈ m.map Prod.fst) →
      ks.foldl (fun r f => dictSet r f (g f)) m
        = m.map fun p => if p.1 ∈ ks then (p.1, g p.1) else p := by
  intro ks
  induction ks with
  | nil => intro m _ _; simp
  | cons f ks ih =>
    intro m hnd hmem
    have hf : f ∈ m.map Prod.fst := hmem f (by simp)
    have hstep : dictSet m f (g f) = m.map fun p => if p.1 = f then (f, g f) else p :=
      dictSet_eq_map hnd hf
    have hkeys : (dictSet m f (g f)).map Prod.fst = m.map Prod.fst := by
      rw [hstep, List.map_map]
      apply List.map_congr_left
      intro p _
      by_cases hp : p.1 = f <;> simp [hp, Function.comp]
    simp only [List.foldl_cons]
    rw [ih (dictSet m f (g f)) (hkeys ▸ hnd) (fun x hx => hkeys ▸ hmem x (by simp [hx])),
      hstep, List.map_map]
    apply List.map_congr_left
    intro p _
    by_cases h1 : p.1 = f
    · by_cases h2 : p.1 ∈ ks <;> simp [Function.comp, h1, h2]
    · by_cases h2 : p.1 ∈ ks <;> simp [Function.comp, h1, h2]

/-- On a record that has every expected field, the first update loop of
`updateRow` coincides with a plain value-replacement fold. -/
theorem updateRow_loop1_eq (rec : Row) (hrec : Canonical rec) :
    ∀ (ks : List String) (m : Row), m.map Prod.fst = expectedFields →
      (∀ f ∈ ks, f ∈ expectedFields) →
      ks.foldl
        (fun r f =>
          if dictHas r f then dictSet r f (dictGet rec f (dictGet r f ""))
          else dictSet r f (dictGet rec f "")) m
      = ks.foldl (fun r f => dictSet r f (dictGet rec f "")) m := by
  intro ks
  induction ks with
  | nil => intro m _ _; rfl
  | cons f ks ih =>
    intro m hm hks
    have hfm : f ∈ m.map Prod.fst := hm ▸ hks f (by simp)
    have hhas : dictHas m f = true := dictHas_of_mem_keys hfm
    have hfr : f ∈ rec.map Prod.fst := hrec ▸ hks f (by simp)
    have hval : dictGet rec f (dictGet m f "") = dictGet rec f "" :=
      dictGet_default_irrel hfr _ _
    have hkeys : (dictSet m f (dictGet rec f "")).map Prod.fst = m.map Prod.fst :=
      keys_dictSet_of_has m f _ hhas
    simp only [List.foldl_cons, hhas, if_true, hval]
    exact ih (dictSet m f (dictGet rec f "")) (hkeys.trans hm)
      (fun x hx => hks x (by simp [hx]))

/-- The second update loop is the identity once every expected field is
present. -/
theorem updateRow_loop2_id (rec : Row) :
    ∀ (ks : List String) (m : Row), (∀ f ∈ ks, dictHas m f = true) →
      ks.foldl (fun r f => if dictHas r f then r else dictSet r f (dictGet rec f "")) m
        = m := by
  intro ks
  induction ks with
  | nil => intro m _; rfl
  | cons f ks ih =>
    intro m h
    simp only [List.foldl_cons, h f (by simp), if_true]
    exact ih m fun x hx => h x (by simp [hx])

/-- Full-overwrite semantics: updating a canonical row with a canonical
record replaces the row by the record. -/
theorem updateRow_canonical {old rec : Row} (hold : Canonical old)
    (hrec : Canonical rec) : updateRow old rec = rec := by
  have hnd : (old.map Prod.fst).Nodup := hold ▸ expectedFields_nodup
  have hloop1 := updateRow_loop1_eq rec hrec expectedFields old hold (fun _ h => h)
  have hfold := foldl_dictSet_eq_map (fun f => dictGet rec f "") expectedFields old
    hnd (fun f hf => hold ▸ hf)
  have hres : expectedFields.foldl (fun r f => dictSet r f (dictGet rec f "")) old
      = expectedFields.map fun f => (f, dictGet rec f "") := by
    rw [hfold]
    have h1 : ∀ p ∈ old, (if p.1 ∈ expectedFields then (p.1, dictGet rec p.1 "") else p)
        = (p.1, dictGet rec p.1 "") := by
      intro p hp
      have : p.1 ∈ expectedFields := hold ▸ List.mem_map_of_mem Prod.fst hp
      simp [this]
    rw [List.map_congr_left h1]
    have h2 : (fun (a : String × String) => (a.1, dictGet rec a.1 ""))
        = (fun f => (f, dictGet rec f "")) ∘ Prod.fst := rfl
    rw [h2, ← List.map_map, hold]
  have hrecon : expectedFields.map (fun f => (f, dictGet rec f "")) = rec := by
    have := dict_reconstruct (m := rec) (hrec ▸ expectedFields_nodup)
    rwa [hrec] at this
  unfold updateRow
  rw [hloop1, hres, hrecon]
  apply updateRow_loop2_id
  intro f hf
  exact dictHas_of_mem_keys (hrec ▸ hf)

/-- `new_row_data` of a canonical record is the record itself. -/
theorem newRowData_canonical {rec : Row} (hrec : Canonical rec) :
    newRowData rec = rec := by
  have := dict_reconstruct (m := rec) (hrec ▸ expectedFields_nodup)
  rw [hrec] at this
  exact this

/-- Loaded rows are canonical. -/
theorem loadRow_canonical (raw : Row) : Canonical (loadRow raw) := by
  unfold Canonical loadRow
  rw [List.map_map]
  exact List.map_id _

/-- Loading a canonical row is the identity (CSV write/read round trip). -/
theorem loadRow_id {r : Row} (hr : Canonical r) : loadRow r = r := by
  unfold loadRow
  have := dict_reconstruct (m := r) (hr ▸ expectedFields_nodup)
  rwa [hr] at this

/-- `_parse_analysis_file` always produces a canonical record. -/
theorem parseAnalysisFilePairs_canonical (urlMap captures : List (String × String))
    (fileName : String) : Canonical (parseAnalysisFilePairs urlMap captures fileName) := by
  unfold parseAnalysisFilePairs Canonical
  have hbase : ∀ (parsed : Row), parsed.map Prod.fst = expectedFields →
      ∀ v : String, (dictSet parsed "Link" v).map Prod.fst = expectedFields := by
    intro parsed hp v
    rw [keys_dictSet_of_has parsed "Link" v
      (dictHas_of_mem_keys (hp ▸ link_mem_expectedFields)), hp]
  have hp : (expectedFields.map fun field =>
      (field, fieldLookup (foundValues captures) field)).map Prod.fst = expectedFields := by
    rw [List.map_map]; exact List.map_id _
  rcases (parseAnalysisFileName fileName).map Prod.fst with _ | b
  · simpa using hp
  · simp only [Option.map]
    by_cases hh : dictHas urlMap b <;> simp [hh, hp, hbase _ hp]

/-! #### lastIdxOf / lastOcc lemmas -/

theorem lastIdxOf_lt_length :
    ∀ {ks : List String} {k : String} {i : Nat}, lastIdxOf ks k = some i → i < ks.length := by
  intro ks
  induction ks with
  | nil => intro k i h; simp [lastIdxOf] at h
  | cons a t ih =>
    intro k i h
    simp only [lastIdxOf] at h
    rcases ht : lastIdxOf t k with _ | j
    · rw [ht] at h
      by_cases ha : a = k
      · rw [if_pos ha] at h
        injection h with h
        simp only [List.length_cons]
        omega
      · simp [ha] at h
    · rw [ht] at h
      simp only [Option.some.injEq] at h
      have := ih ht
      simp only [List.length_cons]
      omega

theorem lastIdxOf_key :
    ∀ {ks : List String} {k : String} {i : Nat}, lastIdxOf ks k = some i → ks[i]? = some k := by
  intro ks
  induction ks with
  | nil => intro k i h; simp [lastIdxOf] at h
  | cons a t ih =>
    intro k i h
    simp only [lastIdxOf] at h
    rcases ht : lastIdxOf t k with _ | j
    · rw [ht] at h
      by_cases ha : a = k
      · rw [if_pos ha] at h
        injection h with h
        subst h
        simp [ha]
      · simp [ha] at h
    · rw [ht] at h
      simp only [Option.some.injEq] at h
      subst h
      simpa using ih ht

theorem lastIdxOf_eq_none_iff {ks : List String} {k : String} :
    lastIdxOf ks k = none ↔ k ∉ ks := by
  induction ks with
  | nil => simp [lastIdxOf]
  | cons a t ih =>
    simp only [lastIdxOf]
    rcases ht : lastIdxOf t k with _ | j
    · have hkt : k ∉ t := ih.mp ht
      by_cases ha : a = k
      · simp [ha]
      · have : k ≠ a := fun h => ha h.symm
        simp [ha, List.mem_cons, this, hkt]
    · have hkt : k ∈ t := by
        by_contra hc
        rw [ih.mpr hc] at ht
        cases ht
      simp [List.mem_cons, hkt]

theorem lastIdxOf_append_singleton (ks : List String) (a k : String) :
    lastIdxOf (ks ++ [a]) k = if a = k then some ks.length else lastIdxOf ks k := by
  induction ks with
  | nil => by_cases h : a = k <;> simp [lastIdxOf, h]
  | cons b t ih =>
    have hstep : lastIdxOf ((b :: t) ++ [a]) k
        = match lastIdxOf (t ++ [a]) k with
          | some j => some (j + 1)
          | none => if b = k then some 0 else none := rfl
    rw [hstep, ih]
    by_cases h : a = k
    · rw [if_pos h, if_pos h]
      simp
    · rw [if_neg h, if_neg h]
      rfl

theorem set_self_of_getElem? {α : Type} :
    ∀ (l : List α) (i : Nat) (a : α), l[i]? = some a → l.set i a = l := by
  intro l
  induction l with
  | nil => intro i a h; simp at h
  | cons b t ih =>
    intro i a h
    cases i with
    | zero =>
      simp only [List.getElem?_cons_zero, Option.some.injEq] at h
      simp [List.set, h]
    | succ n =>
      simp only [List.getElem?_cons_succ] at h
      simp [List.set, ih n a h]

theorem rowKeys_length (rows : List Row) : (rowKeys rows).length = rows.length := by
  simp [rowKeys]

theorem rowKeys_append (rows : List Row) (r : Row) :
    rowKeys (rows ++ [r]) = rowKeys rows ++ [rowLink r] := by
  simp [rowKeys]

theorem rowKeys_set (rows : List Row) (i : Nat) (r : Row) :
    rowKeys (rows.set i r) = (rowKeys rows).set i (rowLink r) :=
  List.map_set

theorem lastOcc_lt_length {rows : List Row} {k : String} {i : Nat}
    (h : lastOcc rows k = some i) : i < rows.length := by
  have := lastIdxOf_lt_length h
  rwa [rowKeys_length] at this

theorem lastOcc_key {rows : List Row} {k : String} {i : Nat}
    (h : lastOcc rows k = some i) : (rowKeys rows)[i]? = some k :=
  lastIdxOf_key h

theorem lastOcc_eq_none_iff {rows : List Row} {k : String} :
    lastOcc rows k = none ↔ k ∉ rowKeys rows :=
  lastIdxOf_eq_none_iff

theorem lastOcc_append (rows : List Row) (r : Row) (k : String) :
    lastOcc (rows ++ [r]) k
      = if rowLink r = k then some rows.length else lastOcc rows k := by
  unfold lastOcc
  rw [rowKeys_append, lastIdxOf_append_singleton, rowKeys_length]

/-- Setting a row whose key equals the old key at that position leaves the
key list unchanged. -/
theorem rowKeys_set_same {rows : List Row} {i : Nat} {r : Row}
    (h : (rowKeys rows)[i]? = some (rowLink r)) :
    rowKeys (rows.set i r) = rowKeys rows := by
  rw [rowKeys_set]
  exact set_self_of_getElem? _ _ _ h

theorem lastOcc_congr_keys {rows₁ rows₂ : List Row}
    (h : rowKeys rows₁ = rowKeys rows₂) (k : String) :
    lastOcc rows₁ k = lastOcc rows₂ k := by
  unfold lastOcc
  rw [h]

/-! #### The incrementally maintained index agrees with `lastOcc` -/

theorem buildIndex_aux :
    ∀ (rows : List Row) (n : Nat) (m₀ : List (String × Nat)) (k : String), k ≠ "" →
      dictFind? ((List.enumFrom n rows).foldl
        (fun m p => if rowLink p.2 = "" then m else dictSet m (rowLink p.2) p.1) m₀) k
      = match lastIdxOf (rowKeys rows) k with
        | some j => some (n + j)
        | none => dictFind? m₀ k := by
  intro rows
  induction rows with
  | nil => intro n m₀ k hk; simp [rowKeys, lastIdxOf]
  | cons r t ih =>
    intro n m₀ k hk
    rw [List.enumFrom_cons]
    simp only [List.foldl_cons]
    rw [ih (n + 1) _ k hk]
    have hcons : lastIdxOf (rowKeys (r :: t)) k
        = match lastIdxOf (rowKeys t) k with
          | some j => some (j + 1)
          | none => if rowLink r = k then some 0 else none := rfl
    rw [hcons]
    rcases ht : lastIdxOf (rowKeys t) k with _ | j
    · simp only
      by_cases hr : rowLink r = k
      · have hne : rowLink r ≠ "" := by rw [hr]; exact hk
        rw [if_neg hne, if_pos hr, dictFind?_dictSet, if_pos hr]
        rfl
      · rw [if_neg hr]
        by_cases h₀ : rowLink r = ""
        · rw [if_pos h₀]
        · rw [if_neg h₀, dictFind?_dictSet, if_neg hr]
    · simp only [Option.some.injEq]
      omega

theorem buildIndex_spec (rows : List Row) (k : String) (hk : k ≠ "") :
    dictFind? (buildIndex rows) k = lastOcc rows k := by
  have h := buildIndex_aux rows 0 [] k hk
  unfold buildIndex lastOcc
  rw [show rows.enum = List.enumFrom 0 rows from rfl, h]
  rcases lastIdxOf (rowKeys rows) k with _ | j
  · simp [dictFind?]
  · simp

theorem csvStep_bridge {st : TableState} {rec : Row}
    (hrows : ∀ row ∈ st.rows, Canonical row) (hidx : IdxOk st)
    (hrec : Canonical rec) :
    (csvStep st rec).rows = stepP st.rows rec
      ∧ (∀ row ∈ (csvStep st rec).rows, Canonical row)
      ∧ IdxOk (csvStep st rec) := by
  by_cases h₀ : rowLink rec = ""
  · simp only [csvStep, stepP, if_pos h₀]
    refine ⟨trivial, ?_, ?_⟩
    · intro row hrow
      rcases List.mem_append.mp hrow with h | h
      · exact hrows row h
      · simp only [List.mem_singleton] at h
        subst h; exact hrec
    · intro k hk
      show dictFind? st.idx k = lastOcc (st.rows ++ [rec]) k
      rw [lastOcc_append, if_neg (by rw [h₀]; exact fun he => hk he.symm)]
      exact hidx k hk
  · rcases hf : dictFind? st.idx (rowLink rec) with _ | i
    · have hlo : lastOcc st.rows (rowLink rec) = none := by
        rw [← hidx _ h₀]; exact hf
      have hnrd := newRowData_canonical hrec
      simp only [csvStep, stepP, if_neg h₀, hf, hlo, hnrd]
      refine ⟨trivial, ?_, ?_⟩
      · intro row hrow
        rcases List.mem_append.mp hrow with h | h
        · exact hrows row h
        · simp only [List.mem_singleton] at h
          subst h; exact hrec
      · intro k hk
        show dictFind? (dictSet st.idx (rowLink rec) st.rows.length) k
          = lastOcc (st.rows ++ [rec]) k
        rw [dictFind?_dictSet, lastOcc_append]
        by_cases hr : rowLink rec = k
        · rw [if_pos hr, if_pos hr]
        · rw [if_neg hr, if_neg hr]
          exact hidx k hk
    · have hlo : lastOcc st.rows (rowLink rec) = some i := by
        rw [← hidx _ h₀]; exact hf
      have hip : i < st.rows.length := lastOcc_lt_length hlo
      obtain ⟨old, hold⟩ : ∃ old, st.rows[i]? = some old := by
        rcases hq : st.rows[i]? with _ | old
        · rw [List.getElem?_eq_none_iff] at hq; omega
        · exact ⟨old, rfl⟩
      have holdC : Canonical old := hrows old (List.getElem?_mem hold)
      have hup : updateRow (st.rows[i]?.getD []) rec = rec := by
        rw [hold]
        exact updateRow_canonical holdC hrec
      simp only [csvStep, stepP, if_neg h₀, hf, hlo, hup]
      have hkeys : rowKeys (st.rows.set i rec) = rowKeys st.rows :=
        rowKeys_set_same (lastOcc_key hlo)
      refine ⟨trivial, ?_, ?_⟩
      · intro row hrow
        rcases List.mem_or_eq_of_mem_set hrow with h | h
        · exact hrows row h
        · subst h; exact hrec
      · intro k hk
        show dictFind? st.idx k = lastOcc (st.rows.set i rec) k
        rw [lastOcc_congr_keys hkeys]
        exact hidx k hk

theorem foldl_csvStep_bridge :
    ∀ (recs : List Row) (st : TableState),
      (∀ row ∈ st.rows, Canonical row) → IdxOk st →
      (∀ rc ∈ recs, Canonical rc) →
      (recs.foldl csvStep st).rows = foldP st.rows recs := by
  intro recs
  induction recs with
  | nil => intro st _ _ _; rfl
  | cons rc rest ih =>
    intro st hrows hidx hrecs
    have hb := csvStep_bridge hrows hidx (hrecs rc (by simp))
    simp only [List.foldl_cons, foldP]
    rw [ih (csvStep st rc) hb.2.1 hb.2.2 (fun x hx => hrecs x (by simp [hx])), hb.1]
    rfl

theorem processAllAnalyses_eq_foldP (existing recs : List Row)
    (hrecs : ∀ rc ∈ recs, Canonical rc) :
    processAllAnalyses existing recs = foldP (existing.map loadRow) recs := by
  unfold processAllAnalyses
  refine foldl_csvStep_bridge recs ⟨existing.map loadRow, buildIndex (existing.map loadRow)⟩ ?_ ?_ hrecs
  · intro row hrow
    obtain ⟨raw, _, rfl⟩ := List.mem_map.mp hrow
    exact loadRow_canonical raw
  · intro k hk
    exact buildIndex_spec _ k hk

/-! #### Structural facts about the positional upsert -/

theorem stepP_canonical {rows : List Row} {rec : Row}
    (hrows : ∀ row ∈ rows, Canonical row) (hrec : Canonical rec) :
    ∀ row ∈ stepP rows rec, Canonical row := by
  intro row hrow
  unfold stepP at hrow
  by_cases h₀ : rowLink rec = ""
  · rw [if_pos h₀] at hrow
    rcases List.mem_append.mp hrow with h | h
    · exact hrows row h
    · simp only [List.mem_singleton] at h
      subst h; exact hrec
  · rw [if_neg h₀] at hrow
    rcases hlo : lastOcc rows (rowLink rec) with _ | i <;> rw [hlo] at hrow
    · rcases List.mem_append.mp hrow with h | h
      · exact hrows row h
      · simp only [List.mem_singleton] at h
        subst h; exact hrec
    · rcases List.mem_or_eq_of_mem_set hrow with h | h
      · exact hrows row h
      · subst h; exact hrec

theorem foldP_canonical :
    ∀ (recs rows : List Row), (∀ row ∈ rows, Canonical row) →
      (∀ rc ∈ recs, Canonical rc) → ∀ row ∈ foldP rows recs, Canonical row := by
  intro recs
  induction recs with
  | nil => intro rows h _ row hrow; exact h row hrow
  | cons rc rest ih =>
    intro rows hrows hrecs row hrow
    exact ih (stepP rows rc) (stepP_canonical hrows (hrecs rc (by simp)))
      (fun x hx => hrecs x (by simp [hx])) row hrow

theorem stepP_keys_cases (rows : List Row) (rec : Row) :
    rowKeys (stepP rows rec) = rowKeys rows
      ∨ ∃ a, rowKeys (stepP rows rec) = rowKeys rows ++ [a] := by
  unfold stepP
  by_cases h₀ : rowLink rec = ""
  · rw [if_pos h₀]
    exact Or.inr ⟨_, rowKeys_append _ _⟩
  · rw [if_neg h₀]
    rcases hlo : lastOcc rows (rowLink rec) with _ | i
    · exact Or.inr ⟨_, rowKeys_append _ _⟩
    · exact Or.inl (rowKeys_set_same (lastOcc_key hlo))

theorem foldP_keys_prefix :
    ∀ (recs rows : List Row), ∃ ex, rowKeys (foldP rows recs) = rowKeys rows ++ ex := by
  intro recs
  induction recs with
  | nil => intro rows; exact ⟨[], by simp [foldP]⟩
  | cons rc rest ih =>
    intro rows
    obtain ⟨ex, hex⟩ := ih (stepP rows rc)
    have hfold : foldP rows (rc :: rest) = foldP (stepP rows rc) rest := rfl
    rcases stepP_keys_cases rows rc with h | h
    · exact ⟨ex, by rw [hfold, hex, h]⟩
    · obtain ⟨a, h⟩ := h
      exact ⟨a :: ex, by rw [hfold, hex, h, List.append_assoc]; rfl⟩

/-- A position holding a given key and row survives any run whose records
never carry that key. -/
theorem foldP_untouched :
    ∀ (recs rows : List Row) (p : Nat) (r : Row) (k : String),
      k ≠ "" → (∀ rc ∈ recs, rowLink rc ≠ k) →
      lastOcc rows k = some p → rows[p]? = some r →
      lastOcc (foldP rows recs) k = some p ∧ (foldP rows recs)[p]? = some r := by
  intro recs
  induction recs with
  | nil => intro rows p r k _ _ h1 h2; exact ⟨h1, h2⟩
  | cons rc rest ih =>
    intro rows p r k hk hall h1 h2
    have hrc : rowLink rc ≠ k := hall rc (by simp)
    have hp : p < rows.length := lastOcc_lt_length h1
    have hstep : lastOcc (stepP rows rc) k = some p
        ∧ (stepP rows rc)[p]? = some r := by
      unfold stepP
      by_cases h₀ : rowLink rc = ""
      · rw [if_pos h₀]
        refine ⟨?_, ?_⟩
        · rw [lastOcc_append, if_neg (by rw [h₀]; exact fun he => hk he.symm)]
          exact h1
        · rw [List.getElem?_append, if_pos hp]
          exact h2
      · rw [if_neg h₀]
        rcases hlo : lastOcc rows (rowLink rc) with _ | q
        · refine ⟨?_, ?_⟩
          · rw [lastOcc_append, if_neg hrc]
            exact h1
          · rw [List.getElem?_append, if_pos hp]
            exact h2
        · have hqk : (rowKeys rows)[q]? = some (rowLink rc) := lastOcc_key hlo
          have hpk : (rowKeys rows)[p]? = some k := lastOcc_key h1
          have hqp : q ≠ p := by
            rintro rfl
            rw [hqk] at hpk
            exact hrc (Option.some.inj hpk)
          refine ⟨?_, ?_⟩
          · rw [lastOcc_congr_keys (rowKeys_set_same hqk)]
            exact h1
          · rw [List.getElem?_set_ne hqp]
            exact h2
    exact ih (stepP rows rc) p r k hk (fun x hx => hall x (by simp [hx]))
      hstep.1 hstep.2

/-- Two tables that differ only at one keyed position converge as soon as a
record carrying that key is processed, and agree for the whole run. -/
theorem foldP_converge :
    ∀ (recs rows₁ rows₂ : List Row) (p : Nat) (k : String),
      k ≠ "" → rowKeys rows₁ = rowKeys rows₂ →
      (∀ j, j ≠ p → rows₁[j]? = rows₂[j]?) →
      lastOcc rows₁ k = some p → (∃ rc ∈ recs, rowLink rc = k) →
      foldP rows₁ recs = foldP rows₂ recs := by
  intro recs
  induction recs with
  | nil =>
    intro _ _ _ _ _ _ _ _ hex
    simp at hex
  | cons rc rest ih =>
    intro rows₁ rows₂ p k hk hkeys hoff h1 hex
    have hlen : rows₁.length = rows₂.length := by
      have := congrArg List.length hkeys
      simpa [rowKeys] using this
    have hp : p < rows₁.length := lastOcc_lt_length h1
    have h2 : lastOcc rows₂ k = some p := by
      rw [← lastOcc_congr_keys hkeys]
      exact h1
    show foldP (stepP rows₁ rc) rest = foldP (stepP rows₂ rc) rest
    by_cases hrck : rowLink rc = k
    · have hrc0 : rowLink rc ≠ "" := by rw [hrck]; exact hk
      have hs₁ : stepP rows₁ rc = rows₁.set p rc := by
        unfold stepP
        rw [if_neg hrc0, hrck, h1]
      have hs₂ : stepP rows₂ rc = rows₂.set p rc := by
        unfold stepP
        rw [if_neg hrc0, hrck, h2]
      have hset : rows₁.set p rc = rows₂.set p rc := by
        apply List.ext_getElem?
        intro n
        by_cases hn : n = p
        · subst hn
          rw [List.getElem?_set_self hp, List.getElem?_set_self (hlen ▸ hp)]
        · rw [List.getElem?_set_ne (fun he => hn he.symm),
            List.getElem?_set_ne (fun he => hn he.symm)]
          exact hoff n hn
      rw [hs₁, hs₂, hset]
    · obtain ⟨w, hw, hwk⟩ := hex
      have hwrest : w ∈ rest := by
        rcases List.mem_cons.mp hw with h | h
        · subst h; exact absurd hwk hrck
        · exact h
      by_cases h₀ : rowLink rc = ""
      · have hs₁ : stepP rows₁ rc = rows₁ ++ [rc] := by
          unfold stepP; rw [if_pos h₀]
        have hs₂ : stepP rows₂ rc = rows₂ ++ [rc] := by
          unfold stepP; rw [if_pos h₀]
        rw [hs₁, hs₂]
        refine ih _ _ p k hk ?_ ?_ ?_ ⟨w, hwrest, hwk⟩
        · rw [rowKeys_append, rowKeys_append, hkeys]
        · intro j hj
          rw [List.getElem?_append, List.getElem?_append]
          by_cases hjl : j < rows₁.length
          · rw [if_pos hjl, if_pos (hlen ▸ hjl)]
            exact hoff j hj
          · rw [if_neg hjl, if_neg (by omega : ¬ j < rows₂.length), hlen]
        · rw [lastOcc_append, if_neg hrck]
          exact h1
      · rcases hlo₁ : lastOcc rows₁ (rowLink rc) with _ | q
        · have hlo₂ : lastOcc rows₂ (rowLink rc) = none := by
            rw [← lastOcc_congr_keys hkeys]
            exact hlo₁
          have hs₁ : stepP rows₁ rc = rows₁ ++ [rc] := by
            unfold stepP; rw [if_neg h₀, hlo₁]
          have hs₂ : stepP rows₂ rc = rows₂ ++ [rc] := by
            unfold stepP; rw [if_neg h₀, hlo₂]
          rw [hs₁, hs₂]
          refine ih _ _ p k hk ?_ ?_ ?_ ⟨w, hwrest, hwk⟩
          · rw [rowKeys_append, rowKeys_append, hkeys]
          · intro j hj
            rw [List.getElem?_append, List.getElem?_append]
            by_cases hjl : j < rows₁.length
            · rw [if_pos hjl, if_pos (hlen ▸ hjl)]
              exact hoff j hj
            · rw [if_neg hjl, if_neg (by omega : ¬ j < rows₂.length), hlen]
          · rw [lastOcc_append, if_neg hrck]
            exact h1
        · have hlo₂ : lastOcc rows₂ (rowLink rc) = some q := by
            rw [← lastOcc_congr_keys hkeys]
            exact hlo₁
          have hs₁ : stepP rows₁ rc = rows₁.set q rc := by
            unfold stepP; rw [if_neg h₀, hlo₁]
          have hs₂ : stepP rows₂ rc = rows₂.set q rc := by
            unfold stepP; rw [if_neg h₀, hlo₂]
          have hq : q < rows₁.length := lastOcc_lt_length hlo₁
          have hqk : (rowKeys rows₁)[q]? = some (rowLink rc) := lastOcc_key hlo₁
          have hpk : (rowKeys rows₁)[p]? = some k := lastOcc_key h1
          have hqp : q ≠ p := by
            rintro rfl
            rw [hqk] at hpk
            exact hrck (Option.some.inj hpk)
          rw [hs₁, hs₂]
          refine ih _ _ p k hk ?_ ?_ ?_ ⟨w, hwrest, hwk⟩
          · rw [rowKeys_set, rowKeys_set, hkeys]
          · intro j hj
            by_cases hjq : j = q
            · subst hjq
              rw [List.getElem?_set_self hq, List.getElem?_set_self (hlen ▸ hq)]
            · rw [List.getElem?_set_ne (fun he => hjq he.symm),
                List.getElem?_set_ne (fun he => hjq he.symm)]
              exact hoff j hj
          · rw [lastOcc_congr_keys (rowKeys_set_same hqk)]
            exact h1

/-- Replaying a record list with nonempty keys over its own result is the
identity: upsert by key, not append. -/
theorem foldP_idem :
    ∀ (recs rows : List Row), (∀ rc ∈ recs, rowLink rc ≠ "") →
      foldP (foldP rows recs) recs = foldP rows recs := by
  intro recs
  induction recs with
  | nil => intro rows _; rfl
  | cons r rest ih =>
    intro rows hne
    have hk : rowLink r ≠ "" := hne r (by simp)
    have hrest : ∀ rc ∈ rest, rowLink rc ≠ "" := fun x hx => hne x (by simp [hx])
    obtain ⟨p₀, hp₀, hv₀⟩ : ∃ p₀, lastOcc (stepP rows r) (rowLink r) = some p₀
        ∧ (stepP rows r)[p₀]? = some r := by
      unfold stepP
      rw [if_neg hk]
      rcases hlo : lastOcc rows (rowLink r) with _ | i
      · refine ⟨rows.length, ?_, List.getElem?_concat_length rows r⟩
        rw [lastOcc_append, if_pos rfl]
      · have hi : i < rows.length := lastOcc_lt_length hlo
        refine ⟨i, ?_, List.getElem?_set_self hi⟩
        rw [lastOcc_congr_keys (rowKeys_set_same (lastOcc_key hlo))]
        exact hlo
    set A := stepP rows r
    show foldP (stepP (foldP A rest) r) rest = foldP A rest
    by_cases hex : ∃ rc ∈ rest, rowLink rc = rowLink r
    · have hnn : lastOcc A (rowLink r) ≠ none := by rw [hp₀]; simp
      have hmemA : rowLink r ∈ rowKeys A := by
        by_contra hc
        exact hnn (lastOcc_eq_none_iff.mpr hc)
      obtain ⟨ex, hexk⟩ := foldP_keys_prefix rest A
      have hmemT : rowLink r ∈ rowKeys (foldP A rest) := by
        rw [hexk]
        exact List.mem_append.mpr (Or.inl hmemA)
      obtain ⟨p₁, hp₁⟩ : ∃ p₁, lastOcc (foldP A rest) (rowLink r) = some p₁ := by
        rcases hq : lastOcc (foldP A rest) (rowLink r) with _ | p₁
        · exact absurd (lastIdxOf_eq_none_iff.mp hq) (by simpa using hmemT)
        · exact ⟨p₁, rfl⟩
      have hstep : stepP (foldP A rest) r = (foldP A rest).set p₁ r := by
        unfold stepP
        rw [if_neg hk, hp₁]
      have hp₁k : (rowKeys (foldP A rest))[p₁]? = some (rowLink r) :=
        lastOcc_key hp₁
      have hD := foldP_converge rest ((foldP A rest).set p₁ r) (foldP A rest)
        p₁ (rowLink r) hk (rowKeys_set_same hp₁k)
        (fun j hj => List.getElem?_set_ne (fun he => hj he.symm))
        (by rw [lastOcc_congr_keys (rowKeys_set_same hp₁k)]; exact hp₁)
        hex
      rw [hstep, hD, ih A hrest]
    · push_neg at hex
      have hN := foldP_untouched rest A p₀ r (rowLink r) hk hex hp₀ hv₀
      have hTid : stepP (foldP A rest) r = foldP A rest := by
        unfold stepP
        rw [if_neg hk, hN.1]
        exact set_self_of_getElem? _ _ _ hN.2
      rw [hTid, ih A hrest]

/-- C1: Reconciliation is idempotent.  For every existing consolidated table
and every list of parsed analysis records (each the output of
`_parse_analysis_file` on some captured reply and file name) whose Link
identities are non-empty, running `CsvProcessor.process_all_analyses` twice
with the same record list yields the same final table as running it once:
the same number of rows and the same field values in every row, because
records are upserted by Link identity rather than appended. -/
theorem claim_C1_reconciliation_idempotent
    (existing : List Row) (urlMap : List (String × String))
    (files : List (List (String × String) × String))
    (hlink : ∀ f ∈ files,
      rowLink (parseAnalysisFilePairs urlMap f.1 f.2) ≠ "") :
    processAllAnalyses
        (processAllAnalyses existing
          (files.map fun f => parseAnalysisFilePairs urlMap f.1 f.2))
        (files.map fun f => parseAnalysisFilePairs urlMap f.1 f.2)
      = processAllAnalyses existing
          (files.map fun f => parseAnalysisFilePairs urlMap f.1 f.2) := by
  set recs := files.map fun f => parseAnalysisFilePairs urlMap f.1 f.2 with hrecs
  have hcanon : ∀ rc ∈ recs, Canonical rc := by
    intro rc hrc
    rw [hrecs] at hrc
    obtain ⟨f, _, rfl⟩ := List.mem_map.mp hrc
    exact parseAnalysisFilePairs_canonical urlMap f.1 f.2
  have hlink' : ∀ rc ∈ recs, rowLink rc ≠ "" := by
    intro rc hrc
    rw [hrecs] at hrc
    obtain ⟨f, hf, rfl⟩ := List.mem_map.mp hrc
    exact hlink f hf
  have h1 := processAllAnalyses_eq_foldP existing recs hcanon
  have hT1canon : ∀ row ∈ processAllAnalyses existing recs, Canonical row := by
    rw [h1]
    exact foldP_canonical recs (existing.map loadRow)
      (fun row hrow => by
        obtain ⟨raw, _, rfl⟩ := List.mem_map.mp hrow
        exact loadRow_canonical raw) hcanon
  have h2 := processAllAnalyses_eq_foldP (processAllAnalyses existing recs)
    recs hcanon
  have hload : (processAllAnalyses existing recs).map loadRow
      = processAllAnalyses existing recs := by
    rw [List.map_congr_left (fun row hrow => loadRow_id (hT1canon row hrow))]
    simp
  rw [h2, hload, h1]
  exact foldP_idem recs (existing.map loadRow) hlink'

/-- Witness for C1 at a concrete input: one analysis file whose Link resolves
through the url map. -/
theorem claim_C1_reconciliation_idempotent_witness :
    (∀ f ∈ [(([("Link", "ignored")], "link1_homedepot_analysis.txt") :
          List (String × String) × String)],
      rowLink (parseAnalysisFilePairs [("link1", "https://www.homedepot.com/p/X")]
        f.1 f.2) ≠ "")
    ∧ processAllAnalyses
        (processAllAnalyses []
          ([(([("Link", "ignored")], "link1_homedepot_analysis.txt") :
              List (String × String) × String)].map fun f =>
            parseAnalysisFilePairs [("link1", "https://www.homedepot.com/p/X")] f.1 f.2))
        ([(([("Link", "ignored")], "link1_homedepot_analysis.txt") :
            List (String × String) × String)].map fun f =>
          parseAnalysisFilePairs [("link1", "https://www.homedepot.com/p/X")] f.1 f.2)
      = processAllAnalyses []
          ([(([("Link", "ignored")], "link1_homedepot_analysis.txt") :
              List (String × String) × String)].map fun f =>
            parseAnalysisFilePairs [("link1", "https://www.homedepot.com/p/X")] f.1 f.2) :=
  ⟨by decide,
    claim_C1_reconciliation_idempotent [] [("link1", "https://www.homedepot.com/p/X")]
      [([("Link", "ignored")], "link1_homedepot_analysis.txt")] (by decide)⟩

/-! ### C4: full-overwrite update semantics -/

theorem keys_dictSet_cases {V : Type} :
    ∀ (m : List (String × V)) (k : String) (v : V) (k₂ : String),
      k₂ ∈ (dictSet m k v).map Prod.fst → k₂ ∈ m.map Prod.fst ∨ k₂ = k := by
  intro m
  induction m with
  | nil =>
    intro k v k₂ h
    simp [dictSet] at h
    exact Or.inr h
  | cons p t ih =>
    intro k v k₂ h
    by_cases hp : p.1 = k
    · rw [show dictSet (p :: t) k v = (k, v) :: t from by
        obtain ⟨a, b⟩ := p
        simp only [dictSet]
        rw [if_pos hp]] at h
      simp only [List.map_cons, List.mem_cons] at h ⊢
      rcases h with h | h
      · exact Or.inr h
      · exact Or.inl (Or.inr h)
    · rw [show dictSet (p :: t) k v = p :: dictSet t k v from by
        obtain ⟨a, b⟩ := p
        simp only [dictSet]
        rw [if_neg hp]] at h
      simp only [List.map_cons, List.mem_cons] at h ⊢
      rcases h with h | h
      · exact Or.inl (Or.inl h)
      · rcases ih k v k₂ h with h2 | h2
        · exact Or.inl (Or.inr h2)
        · exact Or.inr h2

theorem foundValues_keys :
    ∀ (captures acc : List (String × String)) (k : String),
      k ∈ (captures.foldl
        (fun d m => dictSet d (pySplitJoin (pyStrip m.1)) (pyStrip m.2)) acc).map Prod.fst →
      k ∈ acc.map Prod.fst ∨ ∃ c ∈ captures, k = pySplitJoin (pyStrip c.1) := by
  intro captures
  induction captures with
  | nil => intro acc k h; exact Or.inl h
  | cons c rest ih =>
    intro acc k h
    simp only [List.foldl_cons] at h
    rcases ih (dictSet acc (pySplitJoin (pyStrip c.1)) (pyStrip c.2)) k h with h2 | ⟨c₂, hc₂, rfl⟩
    · rcases keys_dictSet_cases acc _ _ k h2 with h3 | h3
      · exact Or.inl h3
      · exact Or.inr ⟨c, by simp, h3⟩
    · exact Or.inr ⟨c₂, by simp [hc₂], rfl⟩

/-- A schema field that no capture pair names (after normalisation) parses to
the empty string. -/
theorem fieldLookup_eq_empty {captures : List (String × String)} {f : String}
    (h : ∀ c ∈ captures, normKey (pySplitJoin (pyStrip c.1)) ≠ normKey f) :
    fieldLookup (foundValues captures) f = "" := by
  unfold fieldLookup
  have hnone : (foundValues captures).find? (fun p => normKey p.1 == normKey f) = none := by
    rw [List.find?_eq_none]
    intro p hp
    have hk : p.1 ∈ (foundValues captures).map Prod.fst := List.mem_map_of_mem _ hp
    rcases foundValues_keys captures [] p.1 hk with h2 | ⟨c, hc, hrw⟩
    · simp at h2
    · simp only [beq_eq_false_iff_ne, ne_eq, beq_iff_eq]
      rw [hrw]
      exact h c hc
  rw [hnone]

theorem getElem?_lt_length {α : Type} {l : List α} {i : Nat} {a : α}
    (h : l[i]? = some a) : i < l.length := by
  by_contra hc
  rw [List.getElem?_eq_none_iff.mpr (by omega)] at h
  cases h

/-- C4: Reconciliation update uses full-overwrite semantics.  When a parsed
analysis record's Link identity matches an existing (schema-shaped) row, the
update loop of `process_all_analyses` makes that row equal to the parsed
record in every one of the 32 schema fields; and any schema field (other
than the force-set `Link`) that the analysis text did not contain is the
empty string in the parsed record, rather than retaining the row's previous
value. -/
theorem claim_C4_full_overwrite
    (st : TableState) (urlMap captures : List (String × String))
    (fileName : String) (i : Nat) (old : Row)
    (hold : st.rows[i]? = some old) (holdC : Canonical old)
    (hne : rowLink (parseAnalysisFilePairs urlMap captures fileName) ≠ "")
    (hfind : dictFind? st.idx
      (rowLink (parseAnalysisFilePairs urlMap captures fileName)) = some i) :
    (csvStep st (parseAnalysisFilePairs urlMap captures fileName)).rows[i]?
        = some (parseAnalysisFilePairs urlMap captures fileName)
    ∧ ∀ f ∈ expectedFields, f ≠ "Link" →
        (∀ c ∈ captures, normKey (pySplitJoin (pyStrip c.1)) ≠ normKey f) →
        dictGet (parseAnalysisFilePairs urlMap captures fileName) f "" = "" := by
  constructor
  · have hcan := parseAnalysisFilePairs_canonical urlMap captures fileName
    have hup : updateRow (st.rows[i]?.getD []) (parseAnalysisFilePairs urlMap captures fileName)
        = parseAnalysisFilePairs urlMap captures fileName := by
      rw [hold]
      exact updateRow_canonical holdC hcan
    simp only [csvStep, if_neg hne, hfind, hup]
    exact List.getElem?_set_self (getElem?_lt_length hold)
  · intro f hf hflink hcap
    unfold parseAnalysisFilePairs
    have hbase : dictGet (expectedFields.map fun field =>
        (field, fieldLookup (foundValues captures) field)) f ""
        = fieldLookup (foundValues captures) f :=
      dictGet_of_keys_eq_map expectedFields_nodup f hf
    have hempty := fieldLookup_eq_empty hcap
    rcases (parseAnalysisFileName fileName).map Prod.fst with _ | b
    · simp only [Option.map]
      rw [hbase, hempty]
    · simp only [Option.map]
      by_cases hh : dictHas urlMap b
      · rw [if_pos hh]
        unfold dictGet
        rw [dictFind?_dictSet, if_neg (fun he => hflink he.symm)]
        rw [show (dictFind? (expectedFields.map fun field =>
            (field, fieldLookup (foundValues captures) field)) f).getD ""
          = dictGet (expectedFields.map fun field =>
            (field, fieldLookup (foundValues captures) field)) f "" from rfl]
        rw [hbase, hempty]
      · rw [if_neg hh, hbase, hempty]

/-- Witness for C4: an existing row for `https://a` is wholly overwritten by
a record parsed from an analysis file that only names the `Category` field. -/
theorem claim_C4_full_overwrite_witness :
    Canonical (expectedFields.map fun f =>
        (f, if f = "Link" then "https://a" else "old"))
    ∧ (csvStep
        ⟨[expectedFields.map fun f => (f, if f = "Link" then "https://a" else "old")],
          [("https://a", 0)]⟩
        (parseAnalysisFilePairs [("link1", "https://a")] [("Category", "x")]
          "link1_homedepot_analysis.txt")).rows[0]?
      = some (parseAnalysisFilePairs [("link1", "https://a")] [("Category", "x")]
          "link1_homedepot_analysis.txt")
    ∧ dictGet (parseAnalysisFilePairs [("link1", "https://a")] [("Category", "x")]
        "link1_homedepot_analysis.txt") "SKU" "" = "" := by
  refine ⟨by decide, ?_, ?_⟩
  · exact (claim_C4_full_overwrite
      ⟨[expectedFields.map fun f => (f, if f = "Link" then "https://a" else "old")],
        [("https://a", 0)]⟩
      [("link1", "https://a")] [("Category", "x")] "link1_homedepot_analysis.txt"
      0 (expectedFields.map fun f => (f, if f = "Link" then "https://a" else "old"))
      (by decide) (by decide) (by decide) (by decide)).1
  · exact (claim_C4_full_overwrite
      ⟨[expectedFields.map fun f => (f, if f = "Link" then "https://a" else "old")],
        [("https://a", 0)]⟩
      [("link1", "https://a")] [("Category", "x")] "link1_homedepot_analysis.txt"
      0 (expectedFields.map fun f => (f, if f = "Link" then "https://a" else "old"))
      (by decide) (by decide) (by decide) (by decide)).2 "SKU" (by decide)
      (by decide) (by decide)

/-! ### C2: identity authority of the Link field -/

/-- C2 counterexample: in `CsvProcessor._parse_analysis_file`, when the
sequence index is absent from the URL map (here: an empty map), the `Link`
field is taken verbatim from the reasoning-collaborator text — refuting the
claim that it never is. -/
theorem claim_C2_counterexample :
    dictGet (parseAnalysisFilePairs [] [("Link", "https://evil.example")]
      "link1_homedepot_analysis.txt") "Link" "" = "https://evil.example"
    ∧ dictFind? ([] : List (String × String)) "link1" = none := by
  exact ⟨by decide, rfl⟩

/-- C2 amended: the `Link` field of a formatted record equals the
authoritative url_map entry in `GeminiProcessor._format_direct_response`
for every state of the map (empty string when the id is absent or does not
parse), independent of the collaborator text; for
`CsvProcessor._parse_analysis_file` the same holds whenever the sequence
index is present in the map. -/
theorem claim_C2_amended_link_authority
    (urlMap captures : List (String × String)) (productId fileName : String) :
    dictGet (formatDirectPairs urlMap captures productId) "Link" ""
      = (match parseProductId productId with
         | some (b, _) => dictGet urlMap b ""
         | none => "")
    ∧ (∀ b r u, parseAnalysisFileName fileName = some (b, r) →
        dictFind? urlMap b = some u →
        dictGet (parseAnalysisFilePairs urlMap captures fileName) "Link" "" = u) := by
  constructor
  · unfold formatDirectPairs
    rcases hm : parseProductId productId with _ | p
    · simp only [hm, Option.map]
      rw [dictGet_of_keys_eq_map expectedFields_nodup "Link" link_mem_expectedFields,
        if_pos rfl]
    · obtain ⟨b, r⟩ := p
      simp only [hm, Option.map]
      rw [dictGet_of_keys_eq_map expectedFields_nodup "Link" link_mem_expectedFields,
        if_pos rfl]
  · intro b r u hfile hfind
    unfold parseAnalysisFilePairs
    rw [hfile]
    simp only [Option.map]
    have hh : dictHas urlMap b = true := by
      unfold dictHas
      rw [hfind]
      rfl
    rw [if_pos hh]
    unfold dictGet
    rw [dictFind?_dictSet, if_pos rfl]
    simp [dictGet, hfind]

/-- Witness for C2 (amended): with the index present in the map, the parsed
record's Link is the authoritative URL even though the collaborator text
claims another. -/
theorem claim_C2_amended_link_authority_witness :
    (parseAnalysisFileName "link1_homedepot_analysis.txt" = some ("link1", "homedepot")
      ∧ dictFind? [("link1", "https://real.example")] "link1" = some "https://real.example")
    ∧ dictGet (parseAnalysisFilePairs [("link1", "https://real.example")]
        [("Link", "https://evil.example")] "link1_homedepot_analysis.txt") "Link" ""
      = "https://real.example" :=
  ⟨⟨by decide, by decide⟩,
    (claim_C2_amended_link_authority [("link1", "https://real.example")]
      [("Link", "https://evil.example")] "x" "link1_homedepot_analysis.txt").2
      "link1" "homedepot" "https://real.example" (by decide) (by decide)⟩

/-! ### C3: the schema-stable fallback record and how the run report scores it -/

theorem char_ofNat_toNat {m : Nat} (h : m < 55296) : (Char.ofNat m).toNat = m := by
  unfold Char.ofNat
  have hv : m.isValidChar := Or.inl h
  rw [dif_pos hv]
  rfl

theorem toLower_ne_newline {c : Char} (h : c ≠ '\n') : Char.toLower c ≠ '\n' := by
  show (if c.toNat ≥ 65 ∧ c.toNat ≤ 90 then Char.ofNat (c.toNat + 32) else c) ≠ '\n'
  by_cases hc : c.toNat ≥ 65 ∧ c.toNat ≤ 90
  · rw [if_pos hc]
    intro heq
    have h2 := congrArg Char.toNat heq
    rw [char_ofNat_toNat (by omega)] at h2
    have h3 : ('\n' : Char).toNat = 10 := by decide
    rw [h3] at h2
    omega
  · rw [if_neg hc]
    exact h

theorem toUpper_ne_newline {c : Char} (h : c ≠ '\n') : Char.toUpper c ≠ '\n' := by
  show (if c.toNat ≥ 97 ∧ c.toNat ≤ 122 then Char.ofNat (c.toNat - 32) else c) ≠ '\n'
  by_cases hc : c.toNat ≥ 97 ∧ c.toNat ≤ 122
  · rw [if_pos hc]
    intro heq
    have h2 := congrArg Char.toNat heq
    rw [char_ofNat_toNat (by omega)] at h2
    have h3 : ('\n' : Char).toNat = 10 := by decide
    rw [h3] at h2
    omega
  · rw [if_neg hc]
    exact h

theorem isWordChar_ne_newline {c : Char} (h : isWordChar c = true) : c ≠ '\n' := by
  rintro rfl
  exact absurd h (by decide)

/-- The retailer group of a parsed product id consists of word characters. -/
theorem parseProductId_retailer_chars {s b r : String}
    (h : parseProductId s = some (b, r)) : ∀ c ∈ r.data, isWordChar c = true := by
  unfold parseProductId at h
  by_cases h1 : s.data.take 4 = ['l', 'i', 'n', 'k']
  · rw [if_pos h1] at h
    by_cases h2 : (s.data.drop 4).takeWhile Char.isDigit = []
    · rw [if_pos h2] at h
      cases h
    · rw [if_neg h2] at h
      rcases h3 : (s.data.drop 4).dropWhile Char.isDigit with _ | ⟨c₀, rest₂⟩ <;>
        rw [h3] at h
      · cases h
      · have h' : (if c₀ = '_' then
            (if rest₂.takeWhile isWordChar = [] then none
             else some (String.mk (['l', 'i', 'n', 'k'] ++
                 (s.data.drop 4).takeWhile Char.isDigit),
               String.mk (rest₂.takeWhile isWordChar)))
            else none) = some (b, r) := h
        by_cases h4 : c₀ = '_'
        · rw [if_pos h4] at h'
          by_cases h5 : rest₂.takeWhile isWordChar = []
          · rw [if_pos h5] at h'
            cases h'
          · rw [if_neg h5] at h'
            injection h' with h'
            injection h' with hb hr
            intro c hc
            rw [← hr] at hc
            exact List.mem_takeWhile_imp hc
        · rw [if_neg h4] at h'
          cases h'
  · rw [if_neg h1] at h
    cases h

theorem retailerDisplayName_count_nl {r : String}
    (h : ∀ c ∈ r.data, isWordChar c = true) :
    (retailerDisplayName r).data.count '\n' = 0 := by
  unfold retailerDisplayName
  by_cases hl : pyLower r = "homedepot"
  · rw [if_pos hl]
    decide
  · rw [if_neg hl]
    unfold pyCapitalize
    rcases hd : r.data with _ | ⟨c, t⟩
    · decide
    · show (Char.toUpper c :: t.map Char.toLower).count '\n' = 0
      rw [List.count_eq_zero]
      intro hmem
      rcases List.mem_cons.mp hmem with he | he
      · have hc : isWordChar c = true := h c (by rw [hd]; simp)
        exact toUpper_ne_newline (isWordChar_ne_newline hc) he.symm
      · obtain ⟨d, hdm, hde⟩ := List.mem_map.mp he
        have hd2 : isWordChar d = true := h d (by rw [hd]; simp [hdm])
        exact toLower_ne_newline (isWordChar_ne_newline hd2) hde

/-! #### Line counting for rendered responses -/

theorem renderLine_count {f v : String} (hf : f.data.count '\n' = 0)
    (hv : v.data.count '\n' = 0) : (renderLine f v).data.count '\n' = 0 := by
  unfold renderLine
  rw [String.data_append, String.data_append, String.data_append,
    List.count_append, List.count_append, List.count_append, hf, hv]
  decide

theorem expectedFields_count_nl : ∀ f ∈ expectedFields, f.data.count '\n' = 0 := by
  decide

theorem joinNL_count :
    ∀ (lines : List String), lines ≠ [] →
      (∀ l ∈ lines, l.data.count '\n' = 0) →
      (joinNL lines).data.count '\n' = lines.length - 1 := by
  intro lines
  induction lines with
  | nil => intro h; exact absurd rfl h
  | cons x t ih =>
    intro _ hall
    cases t with
    | nil =>
      simp only [joinNL, List.length_cons, List.length_nil]
      exact hall x (by simp)
    | cons y t2 =>
      have hx := hall x (by simp)
      have ht : ∀ l ∈ y :: t2, l.data.count '\n' = 0 :=
        fun l hl => hall l (List.mem_cons_of_mem x hl)
      have hj : joinNL (x :: y :: t2) = x ++ "\n" ++ joinNL (y :: t2) := rfl
      rw [hj, String.data_append, String.data_append, List.count_append,
        List.count_append, ih (by simp) ht, hx]
      have h1 : ("\n" : String).data.count '\n' = 1 := by decide
      rw [h1]
      simp only [List.length_cons]
      omega

/-! #### The fallback record -/

/-- The value of each schema field in a fallback record whose product id
parses. -/
theorem createFallbackPairs_value (urlMap : List (String × String))
    (productId b r errMsg : String) (hpid : parseProductId productId = some (b, r))
    (f : String) (hf : f ∈ expectedFields) :
    dictGet (createFallbackPairs urlMap productId errMsg) f ""
      = if f = "Link" then dictGet urlMap b ""
        else if f = "Retailer" then retailerDisplayName r
        else if f = "Description Actual" then "ERROR PROCESSING: " ++ errMsg
        else "" := by
  unfold createFallbackPairs
  simp only [hpid, Option.map]
  rw [dictGet_of_keys_eq_map expectedFields_nodup f hf]
  by_cases h1 : f = "Link"
  · rw [if_pos ⟨h1, rfl⟩, if_pos h1]
    rfl
  · rw [if_neg (fun hc => h1 hc.1), if_neg h1]

/-- The fallback analysis file has exactly one line per schema field. -/
theorem createFallbackResponse_lineCount (urlMap : List (String × String))
    (productId b r errMsg : String) (hpid : parseProductId productId = some (b, r))
    (hmsg : errMsg.data.count '\n' = 0)
    (hurl : (dictGet urlMap b "").data.count '\n' = 0) :
    pyLineCount (createFallbackResponse urlMap productId errMsg) = 32 := by
  unfold createFallbackResponse pyLineCount
  rw [joinNL_count]
  · rw [List.length_map]
    unfold createFallbackPairs
    rw [List.length_map, expectedFields_length]
  · intro hc
    have := congrArg List.length hc
    simp only [List.length_map, List.length_nil] at this
    unfold createFallbackPairs at this
    rw [List.length_map, expectedFields_length] at this
    cases this
  · intro l hl
    obtain ⟨p, hp, rfl⟩ := List.mem_map.mp hl
    unfold createFallbackPairs at hp
    simp only [hpid, Option.map] at hp
    obtain ⟨f2, hf2, rfl⟩ := List.mem_map.mp hp
    apply renderLine_count (expectedFields_count_nl f2 hf2)
    by_cases h1 : f2 = "Link"
    · rw [if_pos ⟨h1, rfl⟩]
      exact hurl
    · rw [if_neg (fun hc => h1 hc.1)]
      by_cases h2 : f2 = "Retailer"
      · rw [if_pos h2]
        exact retailerDisplayName_count_nl (parseProductId_retailer_chars hpid)
      · rw [if_neg h2]
        by_cases h3 : f2 = "Description Actual"
        · rw [if_pos h3, String.data_append, List.count_append, hmsg]
          decide
        · rw [if_neg h3]
          rfl

/-- C3 counterexample: when the collaborator call throws, the RunReport marks
the product `Passed` (the schema-complete fallback passes the line-count
check), not `Failed` as claimed; and the error marker sits in
`Description Actual`, not in the description-accuracy field. -/
theorem claim_C3_counterexample :
    (processOneProduct [("link1", "https://www.homedepot.com/p/X")]
      "link1_homedepot" (Except.error "boom")).2 = ⟨"Passed", none, none⟩
    ∧ dictGet (createFallbackPairs [("link1", "https://www.homedepot.com/p/X")]
        "link1_homedepot"
        ("Error processing " ++ "link1_homedepot" ++ " with Gemini API: " ++ "boom"))
        "Description Accuracy?" "" = "" := by
  exact ⟨by decide, by decide⟩

/-- C3 amended: when the reasoning-collaborator call throws (or an input
artifact is missing) for a product whose id parses, and neither the error
message nor the mapped URL contains a newline, the analysis file written for
that product has exactly 32 lines, its `Link` field is the authoritative
url_map entry, the error message is carried in the `Description Actual`
field, every other field except `Retailer` is empty — and the RunReport
marks that product `Passed`, because the schema-complete fallback passes the
caller's line-count check. -/
theorem claim_C3_amended_fallback
    (urlMap : List (String × String)) (productId b r e : String)
    (hpid : parseProductId productId = some (b, r))
    (hpidnl : nlFree productId = true)
    (henl : nlFree e = true)
    (hurlnl : nlFree (dictGet urlMap b "") = true) :
    pyLineCount (processOneProduct urlMap productId (Except.error e)).1 = 32
    ∧ dictGet (createFallbackPairs urlMap productId
        ("Error processing " ++ productId ++ " with Gemini API: " ++ e)) "Link" ""
      = dictGet urlMap b ""
    ∧ dictGet (createFallbackPairs urlMap productId
        ("Error processing " ++ productId ++ " with Gemini API: " ++ e))
        "Description Actual" ""
      = "ERROR PROCESSING: "
          ++ ("Error processing " ++ productId ++ " with Gemini API: " ++ e)
    ∧ (∀ f ∈ expectedFields, f ≠ "Link" → f ≠ "Retailer" →
        f ≠ "Description Actual" →
        dictGet (createFallbackPairs urlMap productId
          ("Error processing " ++ productId ++ " with Gemini API: " ++ e)) f "" = "")
    ∧ (processOneProduct urlMap productId (Except.error e)).2
        = ⟨"Passed", none, none⟩ := by
  have hmsg : ("Error processing " ++ productId ++ " with Gemini API: "
      ++ e).data.count '\n' = 0 := by
    have hp : productId.data.count '\n' = 0 := by simpa [nlFree] using hpidnl
    have he2 : e.data.count '\n' = 0 := by simpa [nlFree] using henl
    rw [String.data_append, String.data_append, String.data_append,
      List.count_append, List.count_append, List.count_append, hp, he2]
    decide
  have hurl : (dictGet urlMap b "").data.count '\n' = 0 := by
    simpa [nlFree] using hurlnl
  have hcount := createFallbackResponse_lineCount urlMap productId b r _ hpid hmsg hurl
  have htext : geminiResultText urlMap productId (Except.error e)
      = createFallbackResponse urlMap productId
          ("Error processing " ++ productId ++ " with Gemini API: " ++ e) := rfl
  have hresult : (processOneProduct urlMap productId (Except.error e)).1
      = createFallbackResponse urlMap productId
          ("Error processing " ++ productId ++ " with Gemini API: " ++ e) := by
    unfold processOneProduct
    split
    · exact htext
    · exact htext
  refine ⟨by rw [hresult]; exact hcount, ?_, ?_, ?_, ?_⟩
  · rw [createFallbackPairs_value urlMap productId b r _ hpid "Link" (by decide),
      if_pos rfl]
  · rw [createFallbackPairs_value urlMap productId b r _ hpid "Description Actual"
      (by decide)]
    rfl
  · intro f hf h1 h2 h3
    rw [createFallbackPairs_value urlMap productId b r _ hpid f hf,
      if_neg h1, if_neg h2, if_neg h3]
  · unfold processOneProduct
    rw [if_neg]
    intro hc
    rw [htext, hcount, expectedFields_length] at hc
    exact hc rfl

/-- Witness for C3 (amended) at a concrete failing product. -/
theorem claim_C3_amended_fallback_witness :
    (parseProductId "link1_homedepot" = some ("link1", "homedepot")
      ∧ nlFree "link1_homedepot" = true ∧ nlFree "boom" = true
      ∧ nlFree (dictGet [("link1", "https://www.homedepot.com/p/X")] "link1" "") = true)
    ∧ pyLineCount (processOneProduct [("link1", "https://www.homedepot.com/p/X")]
        "link1_homedepot" (Except.error "boom")).1 = 32
    ∧ dictGet (createFallbackPairs [("link1", "https://www.homedepot.com/p/X")]
        "link1_homedepot"
        ("Error processing " ++ "link1_homedepot" ++ " with Gemini API: " ++ "boom"))
        "Link" ""
      = dictGet [("link1", "https://www.homedepot.com/p/X")] "link1" "" :=
  ⟨⟨by decide, by decide, by decide, by decide⟩,
    (claim_C3_amended_fallback [("link1", "https://www.homedepot.com/p/X")]
      "link1_homedepot" "link1" "homedepot" "boom" (by decide) (by decide)
      (by decide) (by decide)).1,
    (claim_C3_amended_fallback [("link1", "https://www.homedepot.com/p/X")]
      "link1_homedepot" "link1" "homedepot" "boom" (by decide) (by decide)
      (by decide) (by decide)).2.1⟩

/-- C5 counterexample: with all four tiers failing, the tier-4 exception
escapes the function instead of yielding a `False` return — refuting the
claim that every tier catches its own exceptions and that failure is
returned on exhaustion. -/
theorem claim_C5_counterexample :
    takeFullPageScreenshotFlow (Except.error "cdp") (Except.error "resize")
      (Except.error "stitch") (Except.error "bare")
      = Except.error "bare" := rfl

/-- C5 amended: tiers 1–3 each catch their own exceptions and fall through;
when tiers 1–3 have failed, the tier-4 bare screenshot runs outside any
handler — on success the function returns `True`, and its exception
propagates out of the function; the function never returns `False` (the
trailing `return False` is unreachable). -/
theorem claim_C5_amended_fallback_tiers (t1 t2 t3 t4 : Except String Unit) :
    takeFullPageScreenshotFlow t1 t2 t3 t4 ≠ Except.ok false
    ∧ (∀ e, takeFullPageScreenshotFlow t1 t2 t3 t4 = Except.error e
        ↔ (∃ e1, t1 = Except.error e1) ∧ (∃ e2, t2 = Except.error e2)
          ∧ (∃ e3, t3 = Except.error e3) ∧ t4 = Except.error e) := by
  cases t1 <;> cases t2 <;> cases t3 <;> cases t4 <;>
    simp [takeFullPageScreenshotFlow]

theorem stitchLoop_dims (vh vw th : Nat) (shot : Nat → PILImage)
    (hvh : 100 < vh) :
    ∀ (n offset : Nat) (acc : PILImage) (log : List (Nat × Nat)),
      th - offset ≤ n →
      (stitchLoop vh vw th shot hvh offset acc log).1.width = acc.width
      ∧ (stitchLoop vh vw th shot hvh offset acc log).1.height = acc.height := by
  intro n
  induction n with
  | zero =>
    intro offset acc log hn
    rw [stitchLoop, dif_neg (by omega)]
    exact ⟨rfl, rfl⟩
  | succ m ih =>
    intro offset acc log hn
    by_cases h : offset < th
    · rw [stitchLoop, dif_pos h]
      by_cases h2 : offset + vh > th
      · rw [if_pos h2]
        exact ih _ _ _ (by omega)
      · rw [if_neg h2]
        exact ih _ _ _ (by omega)
    · rw [stitchLoop, dif_neg h]
      exact ⟨rfl, rfl⟩

theorem stitchLoop_log_bounded (vh vw th : Nat) (shot : Nat → PILImage)
    (hvh : 100 < vh) (hshot : ∀ o, (shot o).height = vh) :
    ∀ (n offset : Nat) (acc : PILImage) (log : List (Nat × Nat)),
      th - offset ≤ n →
      (∀ p ∈ log, p.1 + p.2 ≤ th) →
      ∀ p ∈ (stitchLoop vh vw th shot hvh offset acc log).2, p.1 + p.2 ≤ th := by
  intro n
  induction n with
  | zero =>
    intro offset acc log hn hlog
    rw [stitchLoop, dif_neg (by omega)]
    exact hlog
  | succ m ih =>
    intro offset acc log hn hlog
    by_cases h : offset < th
    · rw [stitchLoop, dif_pos h]
      by_cases h2 : offset + vh > th
      · rw [if_pos h2]
        refine ih _ _ _ (by omega) ?_
        intro p hp
        rcases List.mem_append.mp hp with hp | hp
        · exact hlog p hp
        · simp only [List.mem_singleton] at hp
          subst hp
          omega
      · rw [if_neg h2]
        refine ih _ _ _ (by omega) ?_
        intro p hp
        rcases List.mem_append.mp hp with hp | hp
        · exact hlog p hp
        · simp only [List.mem_singleton] at hp
          subst hp
          rw [hshot]
          omega
    · rw [stitchLoop, dif_neg h]
      exact hlog

/-- C9: when tiers 1 and 2 raise and the viewport height exceeds the
100-pixel tile overlap, the tier-3 stitched capture terminates and returns
an image whose height equals the page's full scroll height and whose width
equals the viewport width, and every pasted tile — in particular the final,
cropped one — lies within the content (`offset + tile height ≤ th`), never
extending past the content end. -/
theorem claim_C9_stitched_capture (t1 t2 : Except String PILImage)
    (vh vw th : Nat) (shot : Nat → PILImage) (hvh : 100 < vh)
    (e1 e2 : String) (h1 : t1 = Except.error e1) (h2 : t2 = Except.error e2)
    (hshot : ∀ o, (shot o).height = vh) :
    takeFullPageScreenshotStitched t1 t2 vh vw th shot hvh
        = Except.ok (stitchCapture vh vw th shot hvh)
    ∧ (stitchCapture vh vw th shot hvh).1.height = th
    ∧ (stitchCapture vh vw th shot hvh).1.width = vw
    ∧ ∀ p ∈ (stitchCapture vh vw th shot hvh).2, p.1 + p.2 ≤ th := by
  refine ⟨?_, ?_, ?_, ?_⟩
  · rw [h1, h2]
    rfl
  · exact (stitchLoop_dims vh vw th shot hvh th 0 (pilNew vw th) []
      (by omega)).2
  · exact (stitchLoop_dims vh vw th shot hvh th 0 (pilNew vw th) []
      (by omega)).1
  · exact stitchLoop_log_bounded vh vw th shot hvh hshot th 0 (pilNew vw th) []
      (by omega) (by simp)

/-- Witness for C9 at concrete dimensions (viewport 1280×800, scroll height
2000, a uniform page). -/
theorem claim_C9_stitched_capture_witness :
    (100 < 800 ∧ (Except.error "cdp" : Except String PILImage) = Except.error "cdp")
    ∧ (stitchCapture 800 1280 2000 (fun _ => ⟨1280, 800, fun _ _ => 7⟩)
        (by omega)).1.height = 2000
    ∧ (stitchCapture 800 1280 2000 (fun _ => ⟨1280, 800, fun _ _ => 7⟩)
        (by omega)).1.width = 1280 :=
  ⟨⟨by omega, rfl⟩,
    (claim_C9_stitched_capture (Except.error "cdp") (Except.error "resize")
      800 1280 2000 (fun _ => ⟨1280, 800, fun _ _ => 7⟩) (by omega)
      "cdp" "resize" rfl rfl (fun _ => rfl)).2.1,
    (claim_C9_stitched_capture (Except.error "cdp") (Except.error "resize")
      800 1280 2000 (fun _ => ⟨1280, 800, fun _ _ => 7⟩) (by omega)
      "cdp" "resize" rfl rfl (fun _ => rfl)).2.2.1⟩

/-- C10: whenever an exception is raised mid-flow after the session was
acquired, `capture_product_data` returns `(False, msg)` with the session
closed and no png/txt artifact left on disk; and on every path, a failure
return implies the session is closed and both artifact files are absent. -/
theorem claim_C10_capture_cleanup (b : CaptureBehavior) (applyCrop : Bool)
    (st₀ : CaptureState) :
    (midFlowRaise b = true → (captureProductData b applyCrop st₀).1.1 = false)
    ∧ ((captureProductData b applyCrop st₀).1.1 = false →
        (captureProductData b applyCrop st₀).2.sessionOpen = false
        ∧ (captureProductData b applyCrop st₀).2.hasPng = false
        ∧ (captureProductData b applyCrop st₀).2.hasTxt = false) := by
  obtain ⟨s, n, d, sc, pf, t, tf, c, q⟩ := b
  cases s <;> cases n <;> (try cases d) <;> (try cases sc) <;> (try cases q) <;>
    simp [captureProductData, captureCleanup, midFlowRaise, Except.isOk,
      Except.toBool]

/-- Witness for C10: a session whose screenshot step raises after the page
loaded, starting from a disk that already holds stale artifacts. -/
theorem claim_C10_capture_cleanup_witness :
    midFlowRaise ⟨Except.ok (), Except.ok (), Except.ok true,
        Except.error "tier4 raised", false, true, false, true, Except.ok ()⟩ = true
    ∧ (captureProductData ⟨Except.ok (), Except.ok (), Except.ok true,
        Except.error "tier4 raised", false, true, false, true, Except.ok ()⟩
        true ⟨false, true, true⟩).1.1 = false
    ∧ (captureProductData ⟨Except.ok (), Except.ok (), Except.ok true,
        Except.error "tier4 raised", false, true, false, true, Except.ok ()⟩
        true ⟨false, true, true⟩).2 = ⟨false, false, false⟩ := by
  refine ⟨by decide, ?_, by decide⟩
  exact (claim_C10_capture_cleanup ⟨Except.ok (), Except.ok (), Except.ok true,
    Except.error "tier4 raised", false, true, false, true, Except.ok ()⟩
    true ⟨false, true, true⟩).1 (by decide)

/-- C6 counterexample: a capture that succeeds with the product-details
locator having returned `False` is recorded as a plain `Passed` entry with
no qualifier — refuting the claim that the pass is annotated with a
"missing product details" qualifier. -/
theorem claim_C6_counterexample :
    processTarget 3 (fun _ => Except.ok (captureProductData
      ⟨Except.ok (), Except.ok (), Except.ok false, Except.ok (),
        false, true, false, true, Except.ok ()⟩ true ⟨false, false, false⟩).1)
      = ⟨"Passed", none, none⟩ := by
  decide

/-- C6 amended: `capture_product_data` returns only `(success, error)` — the
details-activation outcome is not propagated — so for every target whose
capture succeeds with the details locator having returned `False`, the
orchestrator records an unqualified `Passed` entry (qualifier `none`), and
in particular never a hard failure. -/
theorem claim_C6_amended_unqualified_pass (b : CaptureBehavior)
    (applyCrop : Bool) (st₀ : CaptureState) (retries : Nat)
    (hr : 0 < retries)
    (hs : b.setup = Except.ok ()) (hn : b.nav = Except.ok ())
    (hd : b.details = Except.ok false) (hsc : b.screenshot = Except.ok ())
    (hq : b.quitStep = Except.ok ()) :
    (captureProductData b applyCrop st₀).1 = (true, "")
    ∧ processTarget retries
        (fun _ => Except.ok (captureProductData b applyCrop st₀).1)
      = ⟨"Passed", none, none⟩ := by
  have hcap : (captureProductData b applyCrop st₀).1 = (true, "") := by
    obtain ⟨s, n, d, sc, pf, t, tf, c, q⟩ := b
    cases hs
    cases hn
    cases hd
    cases hsc
    cases hq
    rfl
  refine ⟨hcap, ?_⟩
  obtain ⟨m, rfl⟩ : ∃ m, retries = m + 1 := ⟨retries - 1, by omega⟩
  unfold processTarget captureRetryLoop
  rw [hcap]

/-- Witness for C6 (amended). -/
theorem claim_C6_amended_unqualified_pass_witness :
    (0 < 3
      ∧ (⟨Except.ok (), Except.ok (), Except.ok false, Except.ok (),
          false, true, false, true, Except.ok ()⟩ : CaptureBehavior).details
        = Except.ok false)
    ∧ processTarget 3 (fun _ => Except.ok (captureProductData
        ⟨Except.ok (), Except.ok (), Except.ok false, Except.ok (),
          false, true, false, true, Except.ok ()⟩ false ⟨false, false, false⟩).1)
      = ⟨"Passed", none, none⟩ :=
  ⟨⟨by omega, rfl⟩,
    (claim_C6_amended_unqualified_pass
      ⟨Except.ok (), Except.ok (), Except.ok false, Except.ok (),
        false, true, false, true, Except.ok ()⟩ false ⟨false, false, false⟩
      3 (by omega) rfl rfl rfl rfl rfl).2⟩

theorem append_bak_ne_self (s : String) : s ++ ".bak" ≠ s := by
  intro h
  have := congrArg String.length h
  rw [String.length_append] at this
  have h4 : (".bak" : String).length = 4 := rfl
  omega

/-- C7: if the canonical CSV existed before reconciliation (so the backup
copy is created) and the write of the new table fails, then after the write
phase the canonical file's contents equal the pre-run contents byte for
byte (restored from the `.bak` sibling) and the function returns `False`. -/
theorem dictFind?_filter_ne {V : Type} (bad : String) :
    ∀ (m : List (String × V)) (k : String), k ≠ bad →
      dictFind? (m.filter (fun q => q.1 ≠ bad)) k = dictFind? m k := by
  intro m
  induction m with
  | nil => intro k _; rfl
  | cons p t ih =>
    intro k hk
    obtain ⟨pk, pv⟩ := p
    simp only [List.filter_cons]
    by_cases hb : pk = bad
    · rw [show decide ((pk, pv).1 ≠ bad) = false by simp [hb],
        if_neg (by simp : ¬ (false : Bool) = true)]
      rw [ih k hk]
      have hne : pk ≠ k := by rw [hb]; exact fun h => hk h.symm
      simp only [dictFind?, if_neg hne]
    · rw [show decide ((pk, pv).1 ≠ bad) = true by simp [hb],
        if_pos (rfl : (true : Bool) = true)]
      simp only [dictFind?]
      by_cases hpk : pk = k
      · rw [if_pos hpk, if_pos hpk]
      · rw [if_neg hpk, if_neg hpk, ih k hk]

/-- C7: if the canonical CSV existed before reconciliation (so the backup
copy is created) and the write of the new table fails, then after the write
phase the canonical file's contents equal the pre-run contents byte for
byte (restored from the `.bak` sibling) and the function returns `False`. -/
theorem claim_C7_backup_restore (fs : List (String × String))
    (canonical snapName newContent partialContent pre : String)
    (hpre : dictFind? fs canonical = some pre) :
    (csvWritePhase fs canonical snapName newContent partialContent true).1 = false
    ∧ dictFind?
        (csvWritePhase fs canonical snapName newContent partialContent true).2
        canonical
      = some pre := by
  have hbakne : canonical ++ ".bak" ≠ canonical := append_bak_ne_self canonical
  have hhas : dictHas fs canonical = true := by
    unfold dictHas
    rw [hpre]
    rfl
  have hget : dictGet fs canonical "" = pre := by
    unfold dictGet
    rw [hpre]
    rfl
  unfold csvWritePhase csvBackupStep
  rw [if_pos hhas, hget]
  have hbak : dictFind? (dictSet (dictSet fs (canonical ++ ".bak") pre)
      canonical partialContent) (canonical ++ ".bak") = some pre := by
    rw [dictFind?_dictSet, if_neg (fun h => hbakne h.symm), dictFind?_dictSet,
      if_pos rfl]
  have hhas₂ : dictHas (dictSet (dictSet fs (canonical ++ ".bak") pre)
      canonical partialContent) (canonical ++ ".bak") = true := by
    unfold dictHas
    rw [hbak]
    rfl
  have hget₂ : dictGet (dictSet (dictSet fs (canonical ++ ".bak") pre)
      canonical partialContent) (canonical ++ ".bak") "" = pre := by
    unfold dictGet
    rw [hbak]
    rfl
  rw [if_pos (show (true : Bool) = true from rfl), if_pos hhas₂, hget₂]
  refine ⟨rfl, ?_⟩
  unfold fsDel
  rw [dictFind?_filter_ne (canonical ++ ".bak") _ canonical
    (fun h => hbakne h.symm), dictFind?_dictSet, if_pos rfl]

/-- Witness for C7: a one-file file system whose table write fails. -/
theorem claim_C7_backup_restore_witness :
    dictFind? [("out/audit_results.csv", "old,rows")] "out/audit_results.csv"
        = some "old,rows"
    ∧ (csvWritePhase [("out/audit_results.csv", "old,rows")]
        "out/audit_results.csv" "out/audit_report/snap.csv" "new,rows" "corrupt"
        true).1 = false
    ∧ dictFind? (csvWritePhase [("out/audit_results.csv", "old,rows")]
        "out/audit_results.csv" "out/audit_report/snap.csv" "new,rows" "corrupt"
        true).2 "out/audit_results.csv" = some "old,rows" :=
  ⟨by decide,
    (claim_C7_backup_restore [("out/audit_results.csv", "old,rows")]
      "out/audit_results.csv" "out/audit_report/snap.csv" "new,rows" "corrupt"
      "old,rows" (by decide)).1,
    (claim_C7_backup_restore [("out/audit_results.csv", "old,rows")]
      "out/audit_results.csv" "out/audit_report/snap.csv" "new,rows" "corrupt"
      "old,rows" (by decide)).2⟩

/-- C8: the two URL-map loaders agree with each other on every input, but on
the failing input — a links file whose first line is blank — the orchestrator
names the captured artifacts `link1` while both URL maps key the same URL as
`link2` and have no `link1` entry at all, so the Link population for the
captured artifact fails.  This refutes the claimed agreement and evaluates
the divergence; the claim itself is the intended behaviour (the pipeline
relies on the indices agreeing), so the code is at fault. -/
theorem claim_C8_index_divergence :
    (∀ lines, geminiLoadUrls lines = csvLoadUrlsFromFile lines)
    ∧ mainLinkAssignment ["", "https://www.homedepot.com/p/X"]
        = [(1, "https://www.homedepot.com/p/X")]
    ∧ geminiLoadUrls ["", "https://www.homedepot.com/p/X"]
        = [("link2", "https://www.homedepot.com/p/X")]
    ∧ dictFind? (geminiLoadUrls ["", "https://www.homedepot.com/p/X"]) "link1"
        = none := by
  refine ⟨fun lines => rfl, by decide, by decide, by decide⟩

end AuditAutomate
